import Mathlib

/-!
Verification of the semantic sync engine of the agent0-ts repository.

The development shallowly embeds the TypeScript sources:
  - src/semantic-search/sync-state.ts      (computeAgentHash, state shapes, stores)
  - src/semantic-search/file-sync-state-store.ts  (file-backed checkpoint store)
  - src/semantic-search/sync-runner.ts     (SemanticSyncRunner: resolveTargets,
    processChain, ensureChainState, prepareAgents, toSemanticAgentRecord,
    indexAgents, run)

JavaScript runtime objects are modelled as insertion-ordered association
lists, JS strings as Lean strings (string comparison in JS is UTF-16
code-unit lexicographic, which agrees with the Lean order on the ASCII
data handled here), and JS numbers in the hash computation are modelled
exactly, including the float64 rounding of the 32-bit FNV multiply.
-/

namespace Agent0

/-! ## JavaScript object primitives

A JS object is an insertion-ordered list of key/value pairs with unique
keys.  Property write replaces the value in place when the key exists and
appends otherwise; property delete removes the key. -/

/-- Lookup of a property in an insertion-ordered JS object. -/
def jsGet {β : Type} (fields : List (String × β)) (k : String) : Option β :=
  fields.lookup k

/-- Property write on an insertion-ordered JS object: update in place when
the key is present, append otherwise. -/
def jsSet {β : Type} : List (String × β) → String → β → List (String × β)
  | [], k, v => [(k, v)]
  | (k', v') :: fs, k, v =>
    if k' = k then (k, v) :: fs else (k', v') :: jsSet fs k v

/-- Property delete on an insertion-ordered JS object. -/
def jsDel {β : Type} (fields : List (String × β)) (k : String) :
    List (String × β) :=
  fields.filter (fun p => p.1 ≠ k)

/-! ## JavaScript values and JSON serialization -/

/-- Runtime JS values that occur in the records handled by the sync
engine.  The constructor for a missing value models the JS undefined
value, which JSON serialization omits from objects and renders as null
inside arrays. -/
inductive JsValue where
  | undef : JsValue
  | str : String → JsValue
  | num : Int → JsValue
  | bool : Bool → JsValue
  | arr : List JsValue → JsValue
  | obj : List (String × JsValue) → JsValue
deriving Repr, Inhabited

/-- Hex digit character, as produced by Number.prototype.toString(16). -/
def hexChar (n : Nat) : Char := Nat.digitChar n

/-- Escape of a single character inside a JSON string literal, following
the QuoteJSONString algorithm of ECMA-262 (backslash escapes for quote,
backslash and the usual control shorthands, unicode escapes for the
remaining control characters, everything else verbatim). -/
def quoteEsc (c : Char) : String :=
  if c = '"' then "\\\""
  else if c = '\\' then "\\\\"
  else if c.toNat = 8 then "\\b"
  else if c.toNat = 9 then "\\t"
  else if c.toNat = 10 then "\\n"
  else if c.toNat = 12 then "\\f"
  else if c.toNat = 13 then "\\r"
  else if c.toNat < 32 then
    "\\u00" ++ String.mk [hexChar (c.toNat / 16), hexChar (c.toNat % 16)]
  else String.singleton c

/-- JSON string literal for a JS string, per QuoteJSONString. -/
def quoteJsonString (s : String) : String :=
  "\"" ++ String.join (s.data.map quoteEsc) ++ "\""

mutual

/-- Embedding of JSON.stringify(value, K) where K is a replacer array of
property names: per ECMA-262, every object at every depth serializes
exactly the properties named in K, in the order of K; arrays are not
filtered; undefined-valued members are skipped. -/
def serializeJson (K : List String) : JsValue → Option String
  | .undef => none
  | .str s => some (quoteJsonString s)
  | .num n => some (toString n)
  | .bool b => some (if b then "true" else "false")
  | .arr xs =>
      some ("[" ++ String.intercalate "," (serializeArr K xs) ++ "]")
  | .obj fs =>
      let fvals := serializeFields K fs
      some ("\x7b" ++
        String.intercalate ","
          (K.filterMap (fun k =>
            (fvals.lookup k).bind (fun ov =>
              ov.map (fun sv => quoteJsonString k ++ ":" ++ sv)))) ++
        "\x7d")

/-- Serialization of array elements: undefined renders as null. -/
def serializeArr (K : List String) : List JsValue → List String
  | [] => []
  | x :: xs => ((serializeJson K x).getD "null") :: serializeArr K xs

/-- Serialization of each object member, keeping the key for the
replacer-array driven selection. -/
def serializeFields (K : List String) :
    List (String × JsValue) → List (String × Option String)
  | [] => []
  | (k, v) :: fs => (k, serializeJson K v) :: serializeFields K fs

end

mutual

/-- Embedding of JSON.stringify(value, null, gap) with an indentation
gap, per the SerializeJSONObject and SerializeJSONArray algorithms of
ECMA-262 (no replacer: all own properties, insertion order). -/
def prettyJson (gap indent : String) : JsValue → Option String
  | .undef => none
  | .str s => some (quoteJsonString s)
  | .num n => some (toString n)
  | .bool b => some (if b then "true" else "false")
  | .arr xs =>
      let ind := indent ++ gap
      let elems := prettyArr gap ind xs
      some (if elems.isEmpty then "[]"
        else "[\n" ++ ind ++ String.intercalate (",\n" ++ ind) elems ++
          "\n" ++ indent ++ "]")
  | .obj fs =>
      let ind := indent ++ gap
      let props := prettyFields gap ind fs
      some (if props.isEmpty then "\x7b\x7d"
        else "\x7b\n" ++ ind ++ String.intercalate (",\n" ++ ind) props ++
          "\n" ++ indent ++ "\x7d")

/-- Pretty serialization of array elements: undefined renders as null. -/
def prettyArr (gap ind : String) : List JsValue → List String
  | [] => []
  | x :: xs => ((prettyJson gap ind x).getD "null") :: prettyArr gap ind xs

/-- Pretty serialization of object members: undefined members are
skipped; with a nonempty gap the member separator is a colon and a
space. -/
def prettyFields (gap ind : String) : List (String × JsValue) → List String
  | [] => []
  | (k, v) :: fs =>
      match prettyJson gap ind v with
      | none => prettyFields gap ind fs
      | some sv => (quoteJsonString k ++ ": " ++ sv) :: prettyFields gap ind fs

end

/-! ## JS number semantics for the FNV-1a hash

The hash loop in computeAgentHash runs on JS numbers: the xor coerces to
a signed 32-bit integer, the multiply is an exact integer product rounded
to the nearest float64, and the unsigned shift reduces modulo two to the
thirty-second. -/

/-- Signed 32-bit reinterpretation of an unsigned 32-bit value
(ECMA ToInt32 on values already reduced modulo two to the 32). -/
def toInt32 (n : Nat) : Int :=
  if n < 2 ^ 31 then (n : Int) else (n : Int) - 2 ^ 32

/-- ECMA ToUint32 of an integral number. -/
def jsToUint32 (i : Int) : Nat := (i % (2 ^ 32 : Int)).toNat

/-- Round a natural number to the nearest multiple of a unit in the last
place, ties to even, as IEEE-754 does for integers beyond the mantissa. -/
def roundNearestEven (n ulp : Nat) : Nat :=
  let q := n / ulp
  let r := n % ulp
  if 2 * r < ulp then q * ulp
  else if 2 * r > ulp then (q + 1) * ulp
  else if q % 2 = 0 then q * ulp else (q + 1) * ulp

/-- Rounding of an exact integer to the nearest float64 value: exact for
magnitudes below two to the 53, round to nearest even with the unit in
the last place of the enclosing binade above.  The binades are written
out up to two to the 56, which covers every product of a signed 32-bit
value with the FNV prime; the final branch is the general formula. -/
def round53 (i : Int) : Int :=
  let m := i.natAbs
  let r :=
    if m < 2 ^ 53 then m
    else if m < 2 ^ 54 then roundNearestEven m 2
    else if m < 2 ^ 55 then roundNearestEven m 4
    else if m < 2 ^ 56 then roundNearestEven m 8
    else roundNearestEven m (2 ^ (Nat.log2 m + 1 - 53))
  if i < 0 then -(r : Int) else (r : Int)

/-- One step of the FNV-1a loop in computeAgentHash: the running hash is
the unsigned 32-bit state, the char code is xor-ed in, and the float64
product with the FNV prime is reduced by the unsigned shift. -/
def fnvStep (h c : Nat) : Nat :=
  jsToUint32 (round53 (toInt32 (h ^^^ c) * 16777619))

/-- UTF-16 code units of a string, as charCodeAt enumerates them. -/
def utf16CodeUnits (s : String) : List Nat :=
  s.data.flatMap (fun c =>
    let n := c.toNat
    if n < 65536 then [n]
    else [55296 + (n - 65536) / 1024, 56320 + (n - 65536) % 1024])

/-- The 32-bit FNV-1a loop of computeAgentHash over a JS string, with the
JS float64 multiplication semantics. -/
def fnv1a32 (s : String) : Nat :=
  (utf16CodeUnits s).foldl fnvStep 2166136261

/-- Lowercase hex rendering, as Number.prototype.toString(16) produces
for an unsigned integer. -/
def natToHex (n : Nat) : String := String.mk (Nat.toDigits 16 n)

/-- Lexicographic strict order on character lists by code point, the
order JS string comparison uses (identical to UTF-16 code-unit order on
the basic-plane data handled here). -/
def charListLt : List Char → List Char → Bool
  | [], [] => false
  | [], _ :: _ => true
  | _ :: _, [] => false
  | a :: as, b :: bs =>
    if a.toNat < b.toNat then true
    else if b.toNat < a.toNat then false
    else charListLt as bs

/-- The JS relational operator on strings. -/
def strLt (a b : String) : Bool := charListLt a.data b.data

/-- Insertion of a key into a sorted key list, keeping order. -/
def insertSorted (s : String) : List String → List String
  | [] => [s]
  | t :: ts => if strLt s t then s :: t :: ts else t :: insertSorted s ts

/-- Sorted copy of a key array, as Array.prototype.sort with the default
comparator (UTF-16 code-unit lexicographic) produces; insertion sort
computes the same sorted list. -/
def sortKeys : List String → List String
  | [] => []
  | k :: ks => insertSorted k (sortKeys ks)

/-- Embedding of computeAgentHash from sync-state.ts on the runtime
object of the agent record: serialize with the sorted own keys as the
replacer array, then hash with the FNV-1a loop and render in hex. -/
def computeAgentHashFields (fields : List (String × JsValue)) : String :=
  let canonical :=
    (serializeJson (sortKeys (fields.map (fun p => p.1))) (.obj fields)).getD
      "undefined"
  natToHex (fnv1a32 canonical)

/-! ## Source records and the record normalizer -/

/-- The registrationFile sub-object of a subgraph agent row; every field
is declared nullable in the SubgraphAgent interface, and a missing or
null field is modelled as the absent option (both trigger the JS nullish
fallbacks identically).  The TS field named id is rendered rid here. -/
structure RegistrationFile where
  rid : Option String
  name : Option String
  description : Option String
  image : Option String
  active : Option Bool
  x402support : Option Bool
  supportedTrusts : Option (List String)
  mcpTools : Option (List String)
  mcpPrompts : Option (List String)
  mcpResources : Option (List String)
  a2aSkills : Option (List String)
  agentWallet : Option String
  ens : Option String
  did : Option String
deriving Repr, DecidableEq, Inhabited

/-- A row returned by the subgraph query.  The updatedAt field is
declared string in the interface, but prepareAgents guards it with a
nullish fallback to "0", so it is carried as an option; a null
registrationFile marks the tombstoned (orphaned) case. -/
structure SubgraphAgent where
  id : String
  chainId : String
  agentId : String
  updatedAt : Option String
  registrationFile : Option RegistrationFile
deriving Repr, DecidableEq, Inhabited

/-- Value of a decimal digit string as an arbitrary-precision natural
number.  This is both the value the claims compare watermarks by and the
value Number takes on the canonical decimal strings the subgraph returns
for chainId. -/
def decimalValue (s : String) : Nat :=
  s.data.foldl (fun n c => n * 10 + (c.toNat - 48)) 0

/-- The canonical record shape handed to the indexing service, one field
per property of the TS literal in toSemanticAgentRecord. -/
structure SemanticAgentRecord where
  chainId : Int
  agentId : String
  name : String
  description : String
  capabilities : List String
  defaultInputModes : List String
  defaultOutputModes : List String
  tags : List String
  metadata : List (String × JsValue)
deriving Repr, Inhabited

/-- JS value of an optional string under the nullish-to-undefined
normalization the metadata literal applies. -/
def optStr : Option String → JsValue
  | none => .undef
  | some s => .str s

/-- JS value of an optional string list under the nullish-to-undefined
normalization the metadata literal applies. -/
def optStrList : Option (List String) → JsValue
  | none => .undef
  | some l => .arr (l.map .str)

/-- JS value of an optional boolean under the nullish-to-undefined
normalization the metadata literal applies. -/
def optBool : Option Bool → JsValue
  | none => .undef
  | some b => .bool b

/-- Embedding of SemanticSyncRunner.toSemanticAgentRecord.  The source
reads the registration file through a non-null assertion; the model
receives the match witness explicitly.  Field values follow the source
literal: nullish fallbacks to empty strings and lists, the capability
list concatenated from the mcp tools, mcp prompts and a2a skills, the
input mode depending on a non-empty (and non-null) mcp tool list, and
the metadata object carrying the raw registration fields. -/
def toSemanticAgentRecord (agent : SubgraphAgent) (reg : RegistrationFile) :
    SemanticAgentRecord :=
  let metadata : List (String × JsValue) :=
    [("registrationId", optStr reg.rid),
     ("supportedTrusts", optStrList reg.supportedTrusts),
     ("mcpTools", optStrList reg.mcpTools),
     ("mcpPrompts", optStrList reg.mcpPrompts),
     ("mcpResources", optStrList reg.mcpResources),
     ("a2aSkills", optStrList reg.a2aSkills),
     ("ens", optStr reg.ens),
     ("did", optStr reg.did),
     ("agentWallet", optStr reg.agentWallet),
     ("active", optBool reg.active),
     ("x402support", optBool reg.x402support),
     ("updatedAt", optStr agent.updatedAt)]
  { chainId := (decimalValue agent.chainId : Int)
    agentId := agent.id
    name := reg.name.getD ""
    description := reg.description.getD ""
    capabilities :=
      reg.mcpTools.getD [] ++ reg.mcpPrompts.getD [] ++ reg.a2aSkills.getD []
    defaultInputModes :=
      match reg.mcpTools with
      | some l => if l.length > 0 then ["mcp"] else ["text"]
      | none => ["text"]
    defaultOutputModes := ["json"]
    tags := reg.supportedTrusts.getD []
    metadata := metadata }

/-- Runtime JS object of a semantic agent record, fields in the
insertion order of the literal in toSemanticAgentRecord. -/
def agentRecordFields (r : SemanticAgentRecord) : List (String × JsValue) :=
  [("chainId", .num r.chainId),
   ("agentId", .str r.agentId),
   ("name", .str r.name),
   ("description", .str r.description),
   ("capabilities", .arr (r.capabilities.map .str)),
   ("defaultInputModes", .arr (r.defaultInputModes.map .str)),
   ("defaultOutputModes", .arr (r.defaultOutputModes.map .str)),
   ("tags", .arr (r.tags.map .str)),
   ("metadata", .obj r.metadata)]

/-- Embedding of computeAgentHash applied to a semantic agent record. -/
def computeAgentHash (r : SemanticAgentRecord) : String :=
  computeAgentHashFields (agentRecordFields r)

/-! ## Sync state and the checkpoint stores -/

/-- Per-chain checkpoint: the last processed watermark and the optional
record-hash map (an insertion-ordered JS object). -/
structure ChainSyncState where
  lastUpdatedAt : String
  agentHashes : Option (List (String × String))
deriving Repr, DecidableEq, Inhabited

/-- The persisted multi-chain sync state: chain key to checkpoint. -/
structure SemanticSyncState where
  chains : List (String × ChainSyncState)
deriving Repr, DecidableEq, Inhabited

/-- Shape of a value a checkpoint store can hand back: the current
multi-chain shape, or a flat pre-multi-chain checkpoint. -/
inductive LoadedState where
  | modern (s : SemanticSyncState)
  | legacy (c : ChainSyncState)
deriving Repr, DecidableEq, Inhabited

/-- Modelled from the spec: normalizeSemanticSyncState is exported by
sync-state.ts, whose multi-chain revision is not among the provided
sources.  Per the legacy-migration rule of the spec and the consumption
site in ensureChainState, a missing state is genesis (empty chain map), a
flat legacy checkpoint is reinterpreted as the distinguished legacy entry
that ensureChainState consumes exactly once, and a multi-chain state
passes through unchanged. -/
def normalizeSemanticSyncState : Option LoadedState → SemanticSyncState
  | none => { chains := [] }
  | some (.modern s) => s
  | some (.legacy c) => { chains := [("__legacy", c)] }

/-- JS object of a per-chain checkpoint, as serialized to disk; the
optional hash map renders as an absent member when undefined. -/
def chainStateToJs (c : ChainSyncState) : JsValue :=
  .obj [("lastUpdatedAt", .str c.lastUpdatedAt),
        ("agentHashes",
          match c.agentHashes with
          | none => .undef
          | some hs => .obj (hs.map (fun p => (p.1, .str p.2))))]

/-- JS object of the multi-chain sync state. -/
def stateToJs (s : SemanticSyncState) : JsValue :=
  .obj [("chains", .obj (s.chains.map (fun p => (p.1, chainStateToJs p.2))))]

/-- The exact byte string FileSemanticSyncStateStore.save writes:
JSON.stringify(state, null, 2). -/
def fileStorePayload (state : SemanticSyncState) : String :=
  (prettyJson "  " "" (stateToJs state)).getD "undefined"

/-! ## File-backed checkpoint store under crashes

The file system is a finite map from paths to file contents.  writeFile
is not atomic: a crash during it can leave any prefix of the payload at
the target path.  rename is atomic (POSIX): the destination switches to
the complete source content in one indivisible step. -/

/-- File system contents: path to file bytes. -/
abbrev FileSystem := List (String × String)

/-- Content of a file, or none when the path does not exist (ENOENT,
which load treats as genesis). -/
def fsRead (fs : FileSystem) (p : String) : Option String := jsGet fs p

/-- Completed write of a file. -/
def fsWrite (fs : FileSystem) (p c : String) : FileSystem := jsSet fs p c

/-- Removal of a path. -/
def fsRemove (fs : FileSystem) (p : String) : FileSystem := jsDel fs p

/-- Atomic rename: the destination takes the complete source content and
the source path disappears, in one step. -/
def fsRename (fs : FileSystem) (src dst : String) : FileSystem :=
  match fsRead fs src with
  | none => fs
  | some c => fsRemove (fsWrite fs dst c) src

/-- Temporary path used by FileSemanticSyncStateStore.save. -/
def tmpPath (filepath : String) : String := filepath ++ ".tmp"

/-- Every point at which a crash can interrupt
FileSemanticSyncStateStore.save: before the temporary write, in the
middle of it with some byte count flushed, after it, or after the
rename (completed save). -/
inductive SaveCrashPoint where
  | beforeWrite : SaveCrashPoint
  | midWrite (n : Nat) : SaveCrashPoint
  | afterWrite : SaveCrashPoint
  | afterRename : SaveCrashPoint
deriving Repr, DecidableEq, Inhabited

/-- File system left behind when save crashes at the given point: save
writes the payload to the temporary path and then renames it over the
target. -/
def fileStoreSaveCrash (fs : FileSystem) (filepath payload : String) :
    SaveCrashPoint → FileSystem
  | .beforeWrite => fs
  | .midWrite n => fsWrite fs (tmpPath filepath) (payload.take n)
  | .afterWrite => fsWrite fs (tmpPath filepath) payload
  | .afterRename =>
      fsRename (fsWrite fs (tmpPath filepath) payload) (tmpPath filepath)
        filepath

/-! ## The sync runner

The runner is embedded as a pure state-passing function.  External
collaborators (the subgraph query per chain, the indexing service and
the checkpoint store) are an environment of pure fallible functions; the
run emits a chronological trace of the calls it performed.  The fetch
loop carries fuel: an exhausted fuel reports that the loop was still
running when observation stopped, which models external termination of a
non-terminating run. -/

/-- Failures surfaced by the collaborators or the configuration. -/
inductive Err where
  | io (msg : String) : Err
  | config (msg : String) : Err
deriving Repr, DecidableEq, Inhabited

/-- Trace events: one per external call the runner performs.  Index,
delete and per-batch save events carry the chain being processed; the
run-final save carries none. -/
inductive Event where
  | fetched (chainKey lower : String) (first : Nat) : Event
  | indexedOne (chainKey : String) (record : SemanticAgentRecord) : Event
  | indexedBatch (chainKey : String) (records : List SemanticAgentRecord) :
      Event
  | deletedBatch (chainKey : String) (items : List (Int × String)) : Event
  | saved (chainKey : String) (state : SemanticSyncState) : Event
  | savedFinal (state : SemanticSyncState) : Event
deriving Repr, Inhabited

/-- The collaborators of a run: the subgraph query (by chain key), the
three indexing-service operations and the checkpoint-store save. -/
structure Env where
  fetch : String → String → Nat → Except Err (List SubgraphAgent)
  indexOne : SemanticAgentRecord → Except Err Unit
  indexBatch : List SemanticAgentRecord → Except Err Unit
  deleteBatch : List (Int × String) → Except Err Unit
  save : SemanticSyncState → Except Err Unit

/-- Runner options that matter to the control flow. -/
structure RunnerConfig where
  batchSize : Nat
  includeOrphanedAgents : Bool
deriving Repr, DecidableEq, Inhabited

/-- Outcome of an observed run: normal completion, an error propagated
out, or fuel exhausted while the loop was still going. -/
inductive RunResult (α : Type) where
  | ok (value : α) : RunResult α
  | fail (e : Err) : RunResult α
  | hung : RunResult α
deriving Repr, DecidableEq

/-- Result of SemanticSyncRunner.prepareAgents: records to index, ids to
delete, staged hash insertions and removals, and the running maximum
watermark. -/
structure PrepareResult where
  toIndex : List SemanticAgentRecord
  toDelete : List (Int × String)
  hashes : List (String × Option String)
  maxUpdatedAt : String
deriving Repr, Inhabited

/-- The diff loop of prepareAgents over the fetched rows, carrying the
running maximum watermark.  String comparison of updatedAt against the
running maximum is the JS relational operator on strings, which is
lexicographic by UTF-16 code units; an orphaned row (null registration
file) is marked for deletion with its hash entry cleared when the
include-orphans policy is on and skipped entirely otherwise; a row whose
recomputed hash equals the stored hash is skipped. -/
def prepareAgentsGo (includeOrphans : Bool) (chainState : ChainSyncState)
    (maxUpdatedAt : String) : List SubgraphAgent → PrepareResult
  | [] => ⟨[], [], [], maxUpdatedAt⟩
  | agent :: rest =>
    let chainId := decimalValue agent.chainId
    let agentId := agent.id
    let updatedAt := agent.updatedAt.getD "0"
    let maxUpdatedAt := if strLt maxUpdatedAt updatedAt then updatedAt else maxUpdatedAt
    match agent.registrationFile with
    | none =>
        if includeOrphans then
          let r := prepareAgentsGo includeOrphans chainState maxUpdatedAt rest
          ⟨r.toIndex, ((chainId : Int), agentId) :: r.toDelete,
            (agentId, none) :: r.hashes, r.maxUpdatedAt⟩
        else
          prepareAgentsGo includeOrphans chainState maxUpdatedAt rest
    | some reg =>
        let record := toSemanticAgentRecord agent reg
        let hash := computeAgentHash record
        if (chainState.agentHashes.bind (fun hs => jsGet hs agentId)) =
            some hash then
          prepareAgentsGo includeOrphans chainState maxUpdatedAt rest
        else
          let r := prepareAgentsGo includeOrphans chainState maxUpdatedAt rest
          ⟨record :: r.toIndex, r.toDelete, (agentId, some hash) :: r.hashes,
            r.maxUpdatedAt⟩

/-- Embedding of SemanticSyncRunner.prepareAgents: the maximum starts at
the checkpoint watermark, and the hash lookups run against the
checkpoint as it stood before the batch. -/
def prepareAgents (includeOrphans : Bool) (agents : List SubgraphAgent)
    (chainState : ChainSyncState) : PrepareResult :=
  prepareAgentsGo includeOrphans chainState chainState.lastUpdatedAt agents

/-- Application of the staged hash deltas after successful writes: a
present hash sets the entry, an absent one deletes it. -/
def applyHashes (hs : List (String × String)) :
    List (String × Option String) → List (String × String)
  | [] => hs
  | (aid, some h) :: rest => applyHashes (jsSet hs aid h) rest
  | (aid, none) :: rest => applyHashes (jsDel hs aid) rest

/-- Embedding of SemanticSyncRunner.ensureChainState: reuse the existing
entry, else consume a legacy entry (moving it under the requested key and
deleting the legacy key), else insert a genesis entry; in every case the
hash map of the entry is normalized from undefined to empty. -/
def ensureChainState (state : SemanticSyncState) (chainKey : String) :
    SemanticSyncState × ChainSyncState :=
  match jsGet state.chains chainKey with
  | some cs0 =>
      let cs := { cs0 with agentHashes := some (cs0.agentHashes.getD []) }
      ({ chains := jsSet state.chains chainKey cs }, cs)
  | none =>
      match jsGet state.chains "__legacy" with
      | some leg =>
          let cs := { leg with agentHashes := some (leg.agentHashes.getD []) }
          ({ chains :=
              jsSet (jsDel (jsSet state.chains chainKey leg) "__legacy")
                chainKey cs }, cs)
      | none =>
          let cs : ChainSyncState := { lastUpdatedAt := "0", agentHashes := some [] }
          ({ chains := jsSet state.chains chainKey cs }, cs)

/-- Embedding of SemanticSyncRunner.indexAgents: exactly one record goes
through the single-record call, two or more through the batch call, and
an empty list performs no call. -/
def indexAgents (env : Env) (chainKey : String) :
    List SemanticAgentRecord → List Event × Except Err Unit
  | [] => ([], .ok ())
  | [r] => ([.indexedOne chainKey r], env.indexOne r)
  | rs => ([.indexedBatch chainKey rs], env.indexBatch rs)

/-- The body of one while-loop iteration of processChain after a
non-empty fetch: diff the page, write the index and delete batches, fold
the staged hashes into the chain state, advance the watermark, and
persist the whole state.  On success it returns the persisted state, the
new chain state, the new watermark and whether the batch indexed or
deleted anything; any failing call aborts with the trace up to and
including the failing call. -/
def processBatch (env : Env) (cfg : RunnerConfig) (chainKey : String)
    (state : SemanticSyncState) (chainState : ChainSyncState)
    (agents : List SubgraphAgent) :
    List Event ×
      Except Err (SemanticSyncState × ChainSyncState × String × Bool) :=
  let p := prepareAgents cfg.includeOrphanedAgents agents chainState
  let iw : List Event × Except Err Unit :=
    if p.toIndex.length > 0 then indexAgents env chainKey p.toIndex
    else ([], .ok ())
  match iw.2 with
  | .error e => (iw.1, .error e)
  | .ok _ =>
    let dw : List Event × Except Err Unit :=
      if p.toDelete.length > 0 then
        ([.deletedBatch chainKey p.toDelete], env.deleteBatch p.toDelete)
      else ([], .ok ())
    match dw.2 with
    | .error e => (iw.1 ++ dw.1, .error e)
    | .ok _ =>
      let cs1 : ChainSyncState :=
        { lastUpdatedAt := p.maxUpdatedAt
          agentHashes :=
            some (applyHashes (chainState.agentHashes.getD []) p.hashes) }
      let state1 : SemanticSyncState :=
        { chains := jsSet state.chains chainKey cs1 }
      match env.save state1 with
      | .error e => (iw.1 ++ dw.1, .error e)
      | .ok _ =>
        (iw.1 ++ dw.1 ++ [.saved chainKey state1],
          .ok (state1, cs1, p.maxUpdatedAt,
            p.toIndex.length > 0 || p.toDelete.length > 0))

/-- The while-loop of SemanticSyncRunner.processChain: fetch a page after
the current watermark, stop on an empty page, otherwise run the batch
body and repeat from the advanced watermark.  Any failing call aborts
with the trace up to and including the failing call. -/
def processChainLoop (env : Env) (cfg : RunnerConfig) (chainKey : String) :
    Nat → SemanticSyncState → ChainSyncState → String → Bool →
      List Event × RunResult (SemanticSyncState × Bool)
  | 0, _, _, _, _ => ([], .hung)
  | fuel + 1, state, chainState, lastUpdatedAt, processedAny =>
    let fev : Event := .fetched chainKey lastUpdatedAt cfg.batchSize
    match env.fetch chainKey lastUpdatedAt cfg.batchSize with
    | .error e => ([fev], .fail e)
    | .ok agents =>
      if agents.isEmpty then ([fev], .ok (state, processedAny))
      else
        match processBatch env cfg chainKey state chainState agents with
        | (bev, .error e) => ([fev] ++ bev, .fail e)
        | (bev, .ok (state1, cs1, maxU, didWork)) =>
          let r :=
            processChainLoop env cfg chainKey fuel state1 cs1 maxU
              (processedAny || didWork)
          (([fev] ++ bev) ++ r.1, r.2)

/-- Embedding of SemanticSyncRunner.processChain: ensure the chain entry
exists (consuming a legacy entry if needed) and run the batch loop from
the checkpoint watermark. -/
def processChain (env : Env) (cfg : RunnerConfig) (fuel : Nat)
    (state : SemanticSyncState) (chainKey : String) :
    List Event × RunResult (SemanticSyncState × Bool) :=
  let sc := ensureChainState state chainKey
  processChainLoop env cfg chainKey fuel sc.1 sc.2 sc.2.lastUpdatedAt false

/-- Sequential processing of the resolved targets, stopping at the first
chain whose processing fails. -/
def runChains (env : Env) (cfg : RunnerConfig) (fuel : Nat) :
    List String → SemanticSyncState →
      List Event × RunResult SemanticSyncState
  | [], state => ([], .ok state)
  | chainKey :: rest, state =>
    match processChain env cfg fuel state chainKey with
    | (tr, .fail e) => (tr, .fail e)
    | (tr, .hung) => (tr, .hung)
    | (tr, .ok (state1, _)) =>
      let r := runChains env cfg fuel rest state1
      (tr ++ r.1, r.2)

/-- Embedding of SemanticSyncRunner.run from an already normalized
in-memory state: process every target sequentially, then persist the
final state once more (the final save also covers a legacy migration
performed without any batch). -/
def runFromState (env : Env) (cfg : RunnerConfig) (fuel : Nat)
    (targets : List String) (state : SemanticSyncState) :
    List Event × RunResult SemanticSyncState :=
  if targets.isEmpty then ([], .ok state)
  else
    match runChains env cfg fuel targets state with
    | (tr, .fail e) => (tr, .fail e)
    | (tr, .hung) => (tr, .hung)
    | (tr, .ok state1) =>
      match env.save state1 with
      | .error e => (tr, .fail e)
      | .ok _ => (tr ++ [.savedFinal state1], .ok state1)

/-- Embedding of SemanticSyncRunner.run including the load-and-normalize
entry step. -/
def runSync (env : Env) (cfg : RunnerConfig) (fuel : Nat)
    (targets : List String) (loaded : Option LoadedState) :
    List Event × RunResult SemanticSyncState :=
  runFromState env cfg fuel targets (normalizeSemanticSyncState loaded)

/-- States the checkpoint store accepted, in order. -/
def savedStates (tr : List Event) : List SemanticSyncState :=
  tr.filterMap (fun ev =>
    match ev with
    | .saved _ s => some s
    | .savedFinal s => some s
    | _ => none)

/-- The content of the checkpoint store after a trace, when any save
happened. -/
def lastSaved (tr : List Event) : Option SemanticSyncState :=
  (savedStates tr).getLast?

/-- Watermarks persisted for a chain key, in save order. -/
def savedWatermarksAt (k : String) (tr : List Event) : List String :=
  (savedStates tr).filterMap (fun s => (jsGet s.chains k).map (·.lastUpdatedAt))

/-- Number of indexing-service index calls in a trace. -/
def countIndexCalls (tr : List Event) : Nat :=
  tr.countP (fun ev =>
    match ev with
    | .indexedOne _ _ => true
    | .indexedBatch _ _ => true
    | _ => false)

/-- Number of indexing-service delete calls in a trace. -/
def countDeleteCalls (tr : List Event) : Nat :=
  tr.countP (fun ev =>
    match ev with
    | .deletedBatch _ _ => true
    | _ => false)

/-- A sequence of runs over the same store: each run starts from the
state the store held (the last accepted save, or the initial state when
nothing was saved yet), and contributes its trace regardless of how it
ended, which models crash-and-restart resumption. -/
def runSeq (cfg : RunnerConfig) (targets : List String) :
    List (Env × Nat) → SemanticSyncState → List Event
  | [], _ => []
  | (env, fuel) :: rest, state =>
    let r := runFromState env cfg fuel targets state
    r.1 ++ runSeq cfg targets rest ((lastSaved r.1).getD state)

/-- A source that honors the paginated query contract: it only returns
rows whose watermark is strictly greater, as an arbitrary-precision
integer, than the requested exclusive lower bound. -/
def FetchSound (env : Env) : Prop :=
  ∀ ck lower n agents, env.fetch ck lower n = .ok agents →
    ∀ a ∈ agents, decimalValue lower < decimalValue (a.updatedAt.getD "0")

/-- Stable insertion of a row into a list ascending by big-integer
watermark. -/
def insertByWatermark (a : SubgraphAgent) :
    List SubgraphAgent → List SubgraphAgent
  | [] => [a]
  | b :: bs =>
    if decimalValue (a.updatedAt.getD "0") ≤ decimalValue (b.updatedAt.getD "0")
    then a :: b :: bs
    else b :: insertByWatermark a bs

/-- Stable sort of rows ascending by big-integer watermark. -/
def sortByWatermark : List SubgraphAgent → List SubgraphAgent
  | [] => []
  | a :: rest => insertByWatermark a (sortByWatermark rest)

/-- Page of a fixed dataset under the semantics of the subgraph query
issued by fetchAgents: rows with updatedAt strictly greater than the
bound as a big integer, in ascending big-integer order, limited to the
page size. -/
def datasetFetch (ds : String → List SubgraphAgent) (ck lower : String)
    (first : Nat) : List SubgraphAgent :=
  (sortByWatermark ((ds ck).filter (fun a =>
      decide (decimalValue lower < decimalValue (a.updatedAt.getD "0"))))).take
    first

/-- Environment over a fixed dataset in which every collaborator call
succeeds. -/
def datasetEnv (ds : String → List SubgraphAgent) : Env where
  fetch := fun ck lower first => .ok (datasetFetch ds ck lower first)
  indexOne := fun _ => .ok ()
  indexBatch := fun _ => .ok ()
  deleteBatch := fun _ => .ok ()
  save := fun _ => .ok ()

/-! ## Target resolution

resolveTargets binds each requested chain to a query client.  Clients
are carried symbolically: an explicitly supplied client handle, the
ambient sdk client, or a fresh client on a URL.  The built-in default
URL table lives in core/contracts.ts, which is not among the provided
sources, so it is a parameter of the configuration. -/

/-- One entry of the targets option of the runner. -/
structure SyncTarget where
  chainId : Nat
  subgraphUrl : Option String
  subgraphClient : Option Nat
deriving Repr, DecidableEq, Inhabited

/-- The client a target resolves to. -/
inductive ResolvedClient where
  | explicitClient (handle : Nat) : ResolvedClient
  | ambient : ResolvedClient
  | fromUrl (url : String) : ResolvedClient
deriving Repr, DecidableEq, Inhabited

/-- Inputs of resolveTargets: the optional explicit target list, the
optional override map, the built-in default URL table, the ambient sdk
chain and whether the sdk carries a subgraph client. -/
structure ResolveConfig where
  targetsConfig : Option (List SyncTarget)
  subgraphOverrides : Option (List (Nat × String))
  defaultSubgraphUrls : List (Nat × String)
  sdkChainId : Nat
  sdkHasSubgraphClient : Bool
deriving Repr, DecidableEq, Inhabited

/-- JS falsiness of an optional URL string: missing, or present but
empty.  The source tests URLs with the bang operator, so an empty string
behaves like a missing one. -/
def jsFalsyStr : Option String → Bool
  | none => true
  | some s => s == ""

/-- Embedding of the per-target body of the resolution loop in
resolveTargets: an explicit client wins; otherwise the explicit URL or,
nullishly, the override URL; if that is falsy and the target equals the
computed default chain while the sdk has a client, the ambient client is
taken; otherwise the built-in default URL fills in, and a still-falsy
URL is a configuration error. -/
def resolveOne (cfg : ResolveConfig) (defaultChainId : Option Nat)
    (t : SyncTarget) : Except Err (Nat × ResolvedClient) :=
  match t.subgraphClient with
  | some h => .ok (t.chainId, .explicitClient h)
  | none =>
    let url0 : Option String :=
      match t.subgraphUrl with
      | some u => some u
      | none => (cfg.subgraphOverrides.getD []).lookup t.chainId
    if jsFalsyStr url0 && decide (defaultChainId = some t.chainId) &&
        cfg.sdkHasSubgraphClient then
      .ok (t.chainId, .ambient)
    else
      let url1 : Option String :=
        if jsFalsyStr url0 then cfg.defaultSubgraphUrls.lookup t.chainId
        else url0
      if jsFalsyStr url1 then
        .error (.config "No subgraph URL configured for chain")
      else
        .ok (t.chainId, .fromUrl (url1.getD ""))

/-- Embedding of SemanticSyncRunner.resolveTargets: an empty or missing
explicit target list falls back to a single implicit target on the sdk
chain, and only in that fallback is the ambient default chain computed. -/
def resolveTargets (cfg : ResolveConfig) :
    Except Err (List (Nat × ResolvedClient)) :=
  let configured : Option (List SyncTarget) :=
    match cfg.targetsConfig with
    | some ts => if ts.length > 0 then some ts else none
    | none => none
  match configured with
  | some ts => ts.mapM (resolveOne cfg none)
  | none =>
      [({ chainId := cfg.sdkChainId, subgraphUrl := none,
          subgraphClient := none } : SyncTarget)].mapM
        (resolveOne cfg (some cfg.sdkChainId))

/-- Resolution rule written from the words of the claim, for comparison
with the source embedding: explicit client, else explicit URL, else
override URL, else the built-in default URL for the partition, else the
ambient client only when no explicit URL or override exists and the
target equals the ambient default; a configuration error otherwise. -/
def resolveOneClaim (cfg : ResolveConfig) (t : SyncTarget) :
    Except Err (Nat × ResolvedClient) :=
  match t.subgraphClient with
  | some h => .ok (t.chainId, .explicitClient h)
  | none =>
    if !jsFalsyStr t.subgraphUrl then
      .ok (t.chainId, .fromUrl (t.subgraphUrl.getD ""))
    else
      let overrideUrl := (cfg.subgraphOverrides.getD []).lookup t.chainId
      if !jsFalsyStr overrideUrl then
        .ok (t.chainId, .fromUrl (overrideUrl.getD ""))
      else
        let builtin := cfg.defaultSubgraphUrls.lookup t.chainId
        if !jsFalsyStr builtin then
          .ok (t.chainId, .fromUrl (builtin.getD ""))
        else if decide (t.chainId = cfg.sdkChainId) &&
            cfg.sdkHasSubgraphClient then
          .ok (t.chainId, .ambient)
        else .error (.config "No subgraph URL configured for chain")

/-- The claim-shaped resolver over the full target list. -/
def resolveTargetsClaim (cfg : ResolveConfig) :
    Except Err (List (Nat × ResolvedClient)) :=
  let configured : Option (List SyncTarget) :=
    match cfg.targetsConfig with
    | some ts => if ts.length > 0 then some ts else none
    | none => none
  match configured with
  | some ts => ts.mapM (resolveOneClaim cfg)
  | none =>
      [({ chainId := cfg.sdkChainId, subgraphUrl := none,
          subgraphClient := none } : SyncTarget)].mapM (resolveOneClaim cfg)

/-- The precedence the source actually implements, written as a flat
rule chain: explicit client, else explicit URL nullishly falling back to
the override URL, else the ambient client when the target equals the
computed default chain and the sdk has a client, else the built-in
default URL, else a configuration error.  The ambient default chain is
only computed when no explicit target list was supplied. -/
def resolveOneAmended (cfg : ResolveConfig) (defaultChainId : Option Nat)
    (t : SyncTarget) : Except Err (Nat × ResolvedClient) :=
  match t.subgraphClient with
  | some h => .ok (t.chainId, .explicitClient h)
  | none =>
    let url0 : Option String :=
      match t.subgraphUrl with
      | some u => some u
      | none => (cfg.subgraphOverrides.getD []).lookup t.chainId
    if !jsFalsyStr url0 then .ok (t.chainId, .fromUrl (url0.getD ""))
    else if decide (defaultChainId = some t.chainId) &&
        cfg.sdkHasSubgraphClient then
      .ok (t.chainId, .ambient)
    else
      let builtin := cfg.defaultSubgraphUrls.lookup t.chainId
      if jsFalsyStr builtin then
        .error (.config "No subgraph URL configured for chain")
      else .ok (t.chainId, .fromUrl (builtin.getD ""))

/-- The amended resolver over the full target list. -/
def resolveTargetsAmended (cfg : ResolveConfig) :
    Except Err (List (Nat × ResolvedClient)) :=
  let configured : Option (List SyncTarget) :=
    match cfg.targetsConfig with
    | some ts => if ts.length > 0 then some ts else none
    | none => none
  match configured with
  | some ts => ts.mapM (resolveOneAmended cfg none)
  | none =>
      [({ chainId := cfg.sdkChainId, subgraphUrl := none,
          subgraphClient := none } : SyncTarget)].mapM
        (resolveOneAmended cfg (some cfg.sdkChainId))

/-! ## Views and helper predicates used by the statements -/

/-- Watermark recorded for a chain key in a state, when the entry
exists. -/
def wmAt (s : SemanticSyncState) (k : String) : Option String :=
  (jsGet s.chains k).map (·.lastUpdatedAt)

/-- Comparison of two watermark strings as arbitrary-precision
integers. -/
def watermarkLe (a b : String) : Prop := decimalValue a ≤ decimalValue b

instance (a b : String) : Decidable (watermarkLe a b) :=
  inferInstanceAs (Decidable (decimalValue a ≤ decimalValue b))

/-- The watermark history of a partition key over a trace started from a
state: the starting entry watermark, if any, followed by the watermark
of every accepted save that carries an entry for the key, in save
order. -/
def wmHistory (k : String) (st : SemanticSyncState) (tr : List Event) :
    List String :=
  (wmAt st k).toList ++ savedWatermarksAt k tr

/-- Monotone watermark bookkeeping for one unit of work ending in a
designated state: the watermark history of the key is non-decreasing as
arbitrary-precision integers, every history entry is bounded by the end
state entry, and the end state still carries an entry for the key
whenever the history is non-empty. -/
def WmStepE (k : String) (st : SemanticSyncState) (tr : List Event)
    (fin : SemanticSyncState) : Prop :=
  List.Pairwise watermarkLe (wmHistory k st tr) ∧
  (∀ a ∈ wmHistory k st tr, ∀ b ∈ (wmAt fin k).toList, watermarkLe a b) ∧
  (wmHistory k st tr ≠ [] → wmAt fin k ≠ none)

/-- Two checkpoint entries that carry the same watermark, or an absent
entry refined into the genesis watermark (as ensureChainState does for a
fresh key). -/
def wmApprox (o₁ o₂ : Option String) : Prop :=
  o₁ = o₂ ∨ (o₁ = none ∧ o₂ = some "0")

/-- Semantic content of a checkpoint entry: the watermark and the hash
map, with an absent entry and an absent hash map both read as genesis.
This identifies states that differ only by the undefined-versus-empty
hash-map normalization ensureChainState applies in memory. -/
def entryView (e : Option ChainSyncState) : String × List (String × String) :=
  match e with
  | none => ("0", [])
  | some c => (c.lastUpdatedAt, c.agentHashes.getD [])

/-- The chain a trace event belongs to; the run-final save belongs to
none of them. -/
def eventChainKey : Event → Option String
  | .fetched k _ _ => some k
  | .indexedOne k _ => some k
  | .indexedBatch k _ => some k
  | .deletedBatch k _ => some k
  | .saved k _ => some k
  | .savedFinal _ => none

/-- True of the events that persist a state. -/
def isSaveEvent : Event → Bool
  | .saved _ _ => true
  | .savedFinal _ => true
  | _ => false

/-- A chain whose checkpointed watermark already exhausts the source: the
next fetch returns the empty page. -/
def FetchDone (env : Env) (cfg : RunnerConfig) (S : SemanticSyncState)
    (ck : String) : Prop :=
  ∃ cs, jsGet S.chains ck = some cs ∧
    env.fetch ck cs.lastUpdatedAt cfg.batchSize = .ok []

/-! ## Concrete fixtures used by failing-input theorems and witnesses -/

/-- A small registration file as the subgraph returns it. -/
def sampleReg : RegistrationFile :=
  { rid := none, name := some "Alpha", description := some "Agent Alpha",
    image := none, active := none, x402support := none,
    supportedTrusts := some [], mcpTools := some [], mcpPrompts := some [],
    mcpResources := some [], a2aSkills := some [], agentWallet := none,
    ens := none, did := none }

/-- Dataset on which the lexicographic watermark comparison re-fetches an
orphaned row: watermarks 9, 15 (orphan) and 95 with page size two. -/
def lexDataset : String → List SubgraphAgent := fun k =>
  if k = "1" then
    [ { id := "a9", chainId := "1", agentId := "9", updatedAt := some "9",
        registrationFile := some sampleReg },
      { id := "a15", chainId := "1", agentId := "15", updatedAt := some "15",
        registrationFile := none },
      { id := "a95", chainId := "1", agentId := "95", updatedAt := some "95",
        registrationFile := some { sampleReg with name := some "P95" } } ]
  else []

/-- One-row dataset used by small witnesses. -/
def oneRowDataset : String → List SubgraphAgent := fun k =>
  if k = "1" then
    [ { id := "r1", chainId := "1", agentId := "7", updatedAt := some "3",
        registrationFile := some sampleReg } ]
  else []

/-- The empty dataset. -/
def emptyDataset : String → List SubgraphAgent := fun _ => []

/-- Configuration on which the source resolver and the claimed
resolution precedence disagree: no explicit targets, no overrides, a
built-in default URL for the sdk chain, and an sdk that carries a
subgraph client. -/
def ambientVsDefaultConfig : ResolveConfig :=
  { targetsConfig := none, subgraphOverrides := none,
    defaultSubgraphUrls := [(11155111, "https://default.example")],
    sdkChainId := 11155111, sdkHasSubgraphClient := true }

/-- Two-chain state used by the isolation witness. -/
def twoChainState : SemanticSyncState :=
  { chains :=
      [("1", { lastUpdatedAt := "0", agentHashes := some [] }),
       ("2", { lastUpdatedAt := "7", agentHashes := some [("x", "h")] })] }

/-- Environment whose query service always fails, for the failure
witness. -/
def failingFetchEnv : Env :=
  { datasetEnv emptyDataset with fetch := fun _ _ _ => .error (.io "boom") }

/-- Subgraph row used by the hash counterexample, ens field set. -/
def ensAgentA : SubgraphAgent :=
  { id := "11155111:1", chainId := "11155111", agentId := "1",
    updatedAt := some "10", registrationFile := none }

/-- Registration with ens a.eth. -/
def ensRegA : RegistrationFile := { sampleReg with ens := some "a.eth" }

/-- Registration with ens b.eth, otherwise identical. -/
def ensRegB : RegistrationFile := { sampleReg with ens := some "b.eth" }

/-- A chain entry with its hash map normalized from undefined to empty,
as ensureChainState leaves it in memory. -/
def normalizeHashes (cs : ChainSyncState) : ChainSyncState :=
  { cs with agentHashes := some (cs.agentHashes.getD []) }

/-- Whether an observed run completed normally. -/
def RunResult.isOk {α : Type} : RunResult α → Bool
  | .ok _ => true
  | _ => false

/-- The non-strict companion of the JS string order. -/
def strLe (a b : String) : Prop := strLt b a = false

/-- The sorted key list of every semantic agent record object, as the
replacer array of computeAgentHash computes it. -/
def agentSortedKeys : List String :=
  ["agentId", "capabilities", "chainId", "defaultInputModes",
   "defaultOutputModes", "description", "metadata", "name", "tags"]

/-! # Lemmas and claim theorems -/

theorem jsGet_jsSet_self {β : Type} (fs : List (String × β)) (k : String)
    (v : β) : jsGet (jsSet fs k v) k = some v := by
  induction fs with
  | nil => simp [jsGet, jsSet, List.lookup]
  | cons p fs ih =>
    obtain ⟨k', v'⟩ := p
    by_cases h : k' = k
    · subst h; simp [jsGet, jsSet, List.lookup]
    · simp only [jsSet, if_neg h, jsGet, List.lookup] at ih ⊢
      have : (k == k') = false := by
        simp [beq_eq_false_iff_ne]; exact fun hh => h hh.symm
      simp [this, ih]

theorem jsGet_jsSet_ne {β : Type} (fs : List (String × β)) (k k' : String)
    (v : β) (h : k' ≠ k) : jsGet (jsSet fs k v) k' = jsGet fs k' := by
  induction fs with
  | nil =>
    simp [jsGet, jsSet, List.lookup, beq_eq_false_iff_ne.mpr h]
  | cons p fs ih =>
    obtain ⟨k₀, v₀⟩ := p
    by_cases hk : k₀ = k
    · subst hk
      simp [jsGet, jsSet, List.lookup, beq_eq_false_iff_ne.mpr h]
    · simp only [jsSet, if_neg hk, jsGet, List.lookup] at ih ⊢
      by_cases hk' : k' = k₀
      · subst hk'; simp
      · simp [beq_eq_false_iff_ne.mpr hk', ih]

theorem jsGet_jsDel_ne {β : Type} (fs : List (String × β)) (k k' : String)
    (h : k' ≠ k) : jsGet (jsDel fs k) k' = jsGet fs k' := by
  induction fs with
  | nil => rfl
  | cons p fs ih =>
    obtain ⟨k₀, v₀⟩ := p
    by_cases hk : k₀ = k
    · subst hk
      have h1 : jsDel ((k₀, v₀) :: fs) k₀ = jsDel fs k₀ := by
        simp [jsDel, List.filter]
      rw [h1, ih]
      simp [jsGet, List.lookup, beq_eq_false_iff_ne.mpr h]
    · have h1 : jsDel ((k₀, v₀) :: fs) k = (k₀, v₀) :: jsDel fs k := by
        simp [jsDel, List.filter, hk]
      rw [h1]
      by_cases hk' : k' = k₀
      · subst hk'; simp [jsGet, List.lookup]
      · simp only [jsGet, List.lookup, beq_eq_false_iff_ne.mpr hk']
        exact ih

/-- The temporary path differs from the target path. -/
theorem tmpPath_ne (fp : String) : tmpPath fp ≠ fp := by
  intro h
  have hl := congrArg String.length h
  rw [tmpPath, String.length_append] at hl
  have h4 : (".tmp" : String).length = 4 := rfl
  omega

/-- C2.  A crash at any point of FileSemanticSyncStateStore.save leaves
the target path holding either the complete old content or the complete
new serialized state, never a prefix or mix: the temporary write never
touches the target, and the rename installs the full payload in one
atomic step. -/
theorem c2_file_save_atomic (fs : FileSystem) (filepath : String)
    (state : SemanticSyncState) (cp : SaveCrashPoint) :
    fsRead (fileStoreSaveCrash fs filepath (fileStorePayload state) cp)
        filepath = fsRead fs filepath ∨
      fsRead (fileStoreSaveCrash fs filepath (fileStorePayload state) cp)
        filepath = some (fileStorePayload state) := by
  have hne : filepath ≠ tmpPath filepath := fun h => tmpPath_ne filepath h.symm
  cases cp with
  | beforeWrite => exact Or.inl rfl
  | midWrite n =>
      exact Or.inl (jsGet_jsSet_ne fs (tmpPath filepath) filepath _ hne)
  | afterWrite =>
      exact Or.inl (jsGet_jsSet_ne fs (tmpPath filepath) filepath _ hne)
  | afterRename =>
      refine Or.inr ?_
      unfold fileStoreSaveCrash fsRename
      rw [show fsRead (fsWrite fs (tmpPath filepath) (fileStorePayload state))
            (tmpPath filepath) = some (fileStorePayload state) from
          jsGet_jsSet_self ..]
      unfold fsRead fsRemove fsWrite
      rw [jsGet_jsDel_ne _ _ _ hne]
      exact jsGet_jsSet_self ..

/-- C1.  Failing input for the claimed big-integer maximum: with the
checkpoint watermark at nine and a single fetched record at watermark
ten, prepareAgents leaves the watermark at nine, because the JS
relational operator compares the strings lexicographically, while the
big-integer maximum of nine and ten is ten. -/
theorem c1_maxUpdatedAt_is_lexicographic :
    (prepareAgents true
      [{ id := "x", chainId := "1", agentId := "1", updatedAt := some "10",
         registrationFile := some sampleReg }]
      { lastUpdatedAt := "9", agentHashes := some [] }).maxUpdatedAt = "9" ∧
    decimalValue "9" < decimalValue "10" := by
  constructor
  · rfl
  · decide

/-- C7.  Failing input for the exactly-one-deletion claim: on the
dataset with watermarks nine, fifteen (orphaned) and ninety-five, page
size two and orphan inclusion on, the run completes normally yet issues
two batch-deletion calls that both contain the orphaned record, because
the lexicographic watermark comparison leaves the checkpoint at nine
after the first page and the second page fetches the orphan again. -/
theorem c7_orphan_deleted_twice :
    ((runFromState (datasetEnv lexDataset)
        { batchSize := 2, includeOrphanedAgents := true } 10 ["1"]
        { chains := [] }).1.countP (fun ev =>
      match ev with
      | .deletedBatch _ items => decide (((1 : Int), "a15") ∈ items)
      | _ => false)) = 2 ∧
    ((runFromState (datasetEnv lexDataset)
        { batchSize := 2, includeOrphanedAgents := true } 10 ["1"]
        { chains := [] }).2).isOk = true := by
  constructor
  · decide
  · decide

/-- The per-target resolution of the source agrees everywhere with the
flat amended precedence chain. -/
theorem resolveOne_eq_amended (cfg : ResolveConfig) (dc : Option Nat)
    (t : SyncTarget) : resolveOne cfg dc t = resolveOneAmended cfg dc t := by
  unfold resolveOne resolveOneAmended
  cases t.subgraphClient with
  | some h => rfl
  | none =>
    by_cases hf :
        jsFalsyStr
          (match t.subgraphUrl with
            | some u => some u
            | none => (cfg.subgraphOverrides.getD []).lookup t.chainId) = true
    · simp only [hf, Bool.true_and, Bool.not_true, Bool.false_eq_true,
        if_false, if_true]
    · simp only [Bool.not_eq_true] at hf
      simp [hf]

/-- C6 counterexample.  With no explicit targets, no overrides, a
built-in default URL for the sdk chain, and an sdk that carries a
subgraph client, the source resolver binds the ambient client while the
claimed precedence binds the built-in default URL: the claimed
resolution order is not the implemented one. -/
theorem c6_counterexample :
    resolveTargets ambientVsDefaultConfig =
      .ok [(11155111, .ambient)] ∧
    resolveTargetsClaim ambientVsDefaultConfig =
      .ok [(11155111, .fromUrl "https://default.example")] ∧
    ResolvedClient.ambient ≠ .fromUrl "https://default.example" := by
  refine ⟨rfl, rfl, by decide⟩

/-- C6 amended.  The resolver binds, in order: an explicitly supplied
client, else the explicit URL nullishly falling back to the override
URL, else the ambient sdk client when no explicit target list was
supplied and the target equals the sdk chain while the sdk carries a
client, else the built-in default URL, and otherwise it throws the
configuration error: the source resolver equals this flat precedence
chain on every configuration. -/
theorem c6_resolution_order_amended (cfg : ResolveConfig) :
    resolveTargets cfg = resolveTargetsAmended cfg := by
  have h1 : resolveOne cfg none = resolveOneAmended cfg none :=
    funext (resolveOne_eq_amended cfg none)
  have h2 : resolveOne cfg (some cfg.sdkChainId) =
      resolveOneAmended cfg (some cfg.sdkChainId) :=
    funext (resolveOne_eq_amended cfg (some cfg.sdkChainId))
  unfold resolveTargets resolveTargetsAmended
  rw [h1, h2]

/-! ## Order lemmas for the JS string comparison -/

theorem charListLt_cons (a b : Char) (as bs : List Char) :
    charListLt (a :: as) (b :: bs) =
      (if a.toNat < b.toNat then true
       else if b.toNat < a.toNat then false
       else charListLt as bs) := rfl

theorem charListLt_irrefl : ∀ l, charListLt l l = false
  | [] => rfl
  | c :: cs => by
    rw [charListLt_cons, if_neg (Nat.lt_irrefl _), if_neg (Nat.lt_irrefl _)]
    exact charListLt_irrefl cs

theorem charListLt_asymm :
    ∀ a b, charListLt a b = true → charListLt b a = false := by
  intro a
  induction a with
  | nil =>
    intro b h
    cases b with
    | nil => exact absurd h Bool.false_ne_true
    | cons c cs => rfl
  | cons x xs ih =>
    intro b h
    cases b with
    | nil => exact absurd h Bool.false_ne_true
    | cons y ys =>
      rw [charListLt_cons] at h ⊢
      rcases Nat.lt_trichotomy x.toNat y.toNat with hlt | heq | hgt
      · rw [if_neg (Nat.lt_asymm hlt), if_pos hlt]
      · rw [heq, if_neg (Nat.lt_irrefl _), if_neg (Nat.lt_irrefl _)] at h
        rw [heq, if_neg (Nat.lt_irrefl _), if_neg (Nat.lt_irrefl _)]
        exact ih ys h
      · rw [if_neg (Nat.lt_asymm hgt), if_pos hgt] at h
        exact absurd h Bool.false_ne_true

theorem charListLt_trans :
    ∀ a b c, charListLt a b = true → charListLt b c = true →
      charListLt a c = true := by
  intro a
  induction a with
  | nil =>
    intro b c h₁ h₂
    cases b with
    | nil => exact absurd h₁ Bool.false_ne_true
    | cons y ys =>
      cases c with
      | nil => exact absurd h₂ Bool.false_ne_true
      | cons z zs => rfl
  | cons x xs ih =>
    intro b c h₁ h₂
    cases b with
    | nil => exact absurd h₁ Bool.false_ne_true
    | cons y ys =>
      cases c with
      | nil => exact absurd h₂ Bool.false_ne_true
      | cons z zs =>
        rw [charListLt_cons] at h₁ h₂ ⊢
        rcases Nat.lt_trichotomy x.toNat y.toNat with hxy | hxy | hxy <;>
          rcases Nat.lt_trichotomy y.toNat z.toNat with hyz | hyz | hyz
        · rw [if_pos (Nat.lt_trans hxy hyz)]
        · rw [if_pos (hyz ▸ hxy)]
        · rw [if_neg (Nat.lt_asymm hyz), if_pos hyz] at h₂
          exact absurd h₂ Bool.false_ne_true
        · rw [if_pos (hxy ▸ hyz)]
        · rw [hxy, if_neg (Nat.lt_irrefl _), if_neg (Nat.lt_irrefl _)] at h₁
          rw [hyz, if_neg (Nat.lt_irrefl _), if_neg (Nat.lt_irrefl _)] at h₂
          rw [hxy, hyz, if_neg (Nat.lt_irrefl _), if_neg (Nat.lt_irrefl _)]
          exact ih ys zs h₁ h₂
        · rw [if_neg (Nat.lt_asymm hyz), if_pos hyz] at h₂
          exact absurd h₂ Bool.false_ne_true
        · rw [if_neg (Nat.lt_asymm hxy), if_pos hxy] at h₁
          exact absurd h₁ Bool.false_ne_true
        · rw [if_neg (Nat.lt_asymm hxy), if_pos hxy] at h₁
          exact absurd h₁ Bool.false_ne_true
        · rw [if_neg (Nat.lt_asymm hxy), if_pos hxy] at h₁
          exact absurd h₁ Bool.false_ne_true

theorem charListLt_conn :
    ∀ a b, charListLt a b = false → charListLt b a = false → a = b := by
  intro a
  induction a with
  | nil =>
    intro b h₁ _
    cases b with
    | nil => rfl
    | cons c cs => simp [charListLt] at h₁
  | cons x xs ih =>
    intro b h₁ h₂
    cases b with
    | nil => simp [charListLt] at h₂
    | cons y ys =>
      rcases Nat.lt_trichotomy x.toNat y.toNat with hlt | heq | hgt
      · rw [charListLt_cons, if_pos hlt] at h₁
        exact absurd h₁ (by simp)
      · have hc : x = y := Char.ext (UInt32.ext heq)
        subst hc
        rw [charListLt_cons, if_neg (Nat.lt_irrefl _),
          if_neg (Nat.lt_irrefl _)] at h₁ h₂
        rw [ih ys h₁ h₂]
      · rw [charListLt_cons, if_pos hgt] at h₂
        exact absurd h₂ (by simp)

theorem strLe_total (a b : String) : strLe a b ∨ strLe b a := by
  rcases Bool.eq_false_or_eq_true (charListLt b.data a.data) with h | h
  · exact Or.inr (charListLt_asymm _ _ h)
  · exact Or.inl h

theorem strLe_trans {a b c : String} (h₁ : strLe a b) (h₂ : strLe b c) :
    strLe a c := by
  unfold strLe strLt at h₁ h₂ ⊢
  by_contra hcon
  rw [Bool.not_eq_false] at hcon
  rcases hab : charListLt a.data b.data with _ | _
  · have heq := charListLt_conn _ _ hab h₁
    rw [heq] at hcon
    rw [hcon] at h₂
    exact absurd h₂ (by simp)
  · have hcb := charListLt_trans _ _ _ hcon hab
    rw [hcb] at h₂
    exact absurd h₂ (by simp)

theorem strLe_of_strLt {a b : String} (h : strLt a b = true) : strLe a b :=
  charListLt_asymm _ _ h

theorem strLt_strLe_trans {a b c : String} (h₁ : strLt a b = true)
    (h₂ : strLe b c) : strLe a c := by
  unfold strLt at h₁
  unfold strLe strLt at h₂ ⊢
  by_contra hcon
  rw [Bool.not_eq_false] at hcon
  have hcb := charListLt_trans _ _ _ hcon h₁
  rw [hcb] at h₂
  exact absurd h₂ (by simp)

instance : IsAntisymm String strLe where
  antisymm _ _ hab hba := String.ext (charListLt_conn _ _ hba hab)

/-! ## The key sort of computeAgentHash -/

theorem insertSorted_perm (s : String) :
    ∀ l, (insertSorted s l).Perm (s :: l)
  | [] => .refl _
  | t :: ts => by
    rw [insertSorted]
    by_cases h : strLt s t
    · rw [if_pos h]
    · rw [if_neg h]
      exact ((insertSorted_perm s ts).cons t).trans (List.Perm.swap s t ts)

theorem sortKeys_perm : ∀ l, (sortKeys l).Perm l
  | [] => .refl _
  | k :: ks => by
    rw [sortKeys]
    exact (insertSorted_perm k (sortKeys ks)).trans ((sortKeys_perm ks).cons k)

theorem insertSorted_sorted (s : String) :
    ∀ l, l.Sorted strLe → (insertSorted s l).Sorted strLe
  | [], _ => List.sorted_singleton s
  | t :: ts, h => by
    rw [insertSorted]
    rcases List.pairwise_cons.mp h with ⟨hts, hsort⟩
    by_cases hlt : strLt s t
    · rw [if_pos hlt]
      refine List.pairwise_cons.mpr ⟨?_, h⟩
      intro x hx
      rcases List.mem_cons.mp hx with hx | hx
      · subst hx; exact strLe_of_strLt hlt
      · exact strLt_strLe_trans hlt (hts x hx)
    · rw [if_neg hlt]
      refine List.pairwise_cons.mpr ⟨?_, insertSorted_sorted s ts hsort⟩
      intro x hx
      rcases List.mem_cons.mp ((insertSorted_perm s ts).mem_iff.mp hx) with
        hx | hx
      · subst hx
        rw [Bool.not_eq_true] at hlt
        exact hlt
      · exact hts x hx

theorem sortKeys_sorted : ∀ l, (sortKeys l).Sorted strLe
  | [] => List.sorted_nil
  | k :: ks => insertSorted_sorted k (sortKeys ks) (sortKeys_sorted ks)

/-- Sorting is invariant under permutation of the keys. -/
theorem sortKeys_eq_of_perm {l₁ l₂ : List String} (h : l₁.Perm l₂) :
    sortKeys l₁ = sortKeys l₂ :=
  List.eq_of_perm_of_sorted
    ((sortKeys_perm l₁).trans (h.trans (sortKeys_perm l₂).symm))
    (sortKeys_sorted l₁) (sortKeys_sorted l₂)

/-! ## Object lookup under permutation -/

theorem lookup_eq_of_perm {β : Type} (k : String)
    {l₁ l₂ : List (String × β)} (hp : l₁.Perm l₂)
    (hnd : (l₁.map Prod.fst).Nodup) : l₁.lookup k = l₂.lookup k := by
  induction hp with
  | nil => rfl
  | cons x _ ih =>
    obtain ⟨kx, vx⟩ := x
    simp only [List.lookup]
    rcases hbe : (k == kx) with _ | _
    · exact ih (by simpa using (List.nodup_cons.mp (by simpa using hnd)).2)
    · rfl
  | swap x y l =>
    obtain ⟨kx, vx⟩ := x
    obtain ⟨ky, vy⟩ := y
    have hne : ky ≠ kx := by
      simp only [List.map, List.nodup_cons, List.mem_cons] at hnd
      exact fun h => hnd.1 (Or.inl h)
    rcases hbk : (k == ky) with _ | _ <;> rcases hbx : (k == kx) with _ | _
    · simp [List.lookup, hbk, hbx]
    · simp [List.lookup, hbk, hbx]
    · simp [List.lookup, hbk, hbx]
    · exact absurd
        (((beq_iff_eq ..).mp hbk).symm.trans ((beq_iff_eq ..).mp hbx)) hne
  | trans h₁ _ ih₁ ih₂ =>
    exact (ih₁ hnd).trans (ih₂ ((h₁.map Prod.fst).nodup hnd))

/-- Serialization of the members commutes with lookup. -/
theorem serializeFields_lookup (K : List String) :
    ∀ (f : List (String × JsValue)) (k : String),
      (serializeFields K f).lookup k = (f.lookup k).map (serializeJson K)
  | [], _ => rfl
  | (k₀, v) :: fs, k => by
    simp only [serializeFields, List.lookup]
    rcases hbe : (k == k₀) with _ | _
    · exact serializeFields_lookup K fs k
    · rfl

/-- Two objects with pointwise equal lookups serialize identically under
any replacer array. -/
theorem serializeJson_obj_congr (K : List String)
    (f₁ f₂ : List (String × JsValue))
    (hl : ∀ k, f₁.lookup k = f₂.lookup k) :
    serializeJson K (.obj f₁) = serializeJson K (.obj f₂) := by
  simp only [serializeJson]
  have hfun :
      (fun k => ((serializeFields K f₁).lookup k).bind (fun ov =>
        ov.map (fun sv => quoteJsonString k ++ ":" ++ sv))) =
      (fun k => ((serializeFields K f₂).lookup k).bind (fun ov =>
        ov.map (fun sv => quoteJsonString k ++ ":" ++ sv))) := by
    funext k
    rw [serializeFields_lookup, serializeFields_lookup, hl k]
  rw [hfun]

/-- C8 amended.  The half of the claim that holds: the hasher is a
function of the object's key-value binding only, so two structurally
equal records, whatever their field insertion order, always produce the
same fingerprint.  (Value sensitivity fails for values nested inside the
metadata field, see the counterexample.) -/
theorem c8_order_insensitive_amended (f₁ f₂ : List (String × JsValue))
    (hperm : f₁.Perm f₂) (hnd : (f₁.map Prod.fst).Nodup) :
    computeAgentHashFields f₁ = computeAgentHashFields f₂ := by
  have hkeys : sortKeys (f₁.map Prod.fst) = sortKeys (f₂.map Prod.fst) :=
    sortKeys_eq_of_perm (hperm.map Prod.fst)
  have hl : ∀ k, f₁.lookup k = f₂.lookup k := fun k =>
    lookup_eq_of_perm k hperm hnd
  unfold computeAgentHashFields
  rw [hkeys, serializeJson_obj_congr _ f₁ f₂ hl]

/-- C8 witness: the order-insensitivity theorem applied to a two-field
object and its swap. -/
theorem c8_order_insensitive_witness :
    ([(("chainId" : String), JsValue.num 5), ("agentId", JsValue.str "a")].Perm
        [(("agentId" : String), JsValue.str "a"), ("chainId", JsValue.num 5)]) ∧
    ([(("chainId" : String), JsValue.num 5),
        ("agentId", JsValue.str "a")].map Prod.fst).Nodup ∧
    computeAgentHashFields
        [(("chainId" : String), JsValue.num 5), ("agentId", JsValue.str "a")] =
      computeAgentHashFields
        [(("agentId" : String), JsValue.str "a"), ("chainId", JsValue.num 5)] :=
  ⟨List.Perm.swap ("agentId", JsValue.str "a") ("chainId", JsValue.num 5) [],
   by decide,
   c8_order_insensitive_amended _ _
     (List.Perm.swap ("agentId", JsValue.str "a") ("chainId", JsValue.num 5) [])
     (by decide)⟩

/-- C8 counterexample.  A change to a field value does not always change
the fingerprint: two records produced by the normalizer that differ in
the ens value nested in the metadata field hash identically, because the
replacer array of sorted top-level keys excludes every nested metadata
key from the serialization. -/
theorem c8_value_change_counterexample :
    computeAgentHash (toSemanticAgentRecord ensAgentA ensRegA) =
      computeAgentHash (toSemanticAgentRecord ensAgentA ensRegB) ∧
    jsGet (toSemanticAgentRecord ensAgentA ensRegA).metadata "ens" =
      some (.str "a.eth") ∧
    jsGet (toSemanticAgentRecord ensAgentA ensRegB).metadata "ens" =
      some (.str "b.eth") ∧
    ("a.eth" : String) ≠ "b.eth" :=
  ⟨rfl, rfl, rfl, by decide⟩

/-! ## Metadata exclusion from the canonical serialization -/

/-- The replacer array computed for every semantic agent record is the
fixed sorted key list. -/
theorem agentKeys_sorted_eq (r : SemanticAgentRecord) :
    sortKeys ((agentRecordFields r).map Prod.fst) = agentSortedKeys := rfl

/-- Canonical serialization of an agent record object: the nine
top-level members in replacer order, each serialized under the same
replacer array. -/
theorem serializeAgentRecord (r : SemanticAgentRecord) :
    serializeJson agentSortedKeys (.obj (agentRecordFields r)) =
      some ("\x7b" ++ String.intercalate ","
        [quoteJsonString "agentId" ++ ":" ++ quoteJsonString r.agentId,
         quoteJsonString "capabilities" ++ ":" ++
           ((serializeJson agentSortedKeys
             (.arr (r.capabilities.map .str))).getD "null"),
         quoteJsonString "chainId" ++ ":" ++ toString r.chainId,
         quoteJsonString "defaultInputModes" ++ ":" ++
           ((serializeJson agentSortedKeys
             (.arr (r.defaultInputModes.map .str))).getD "null"),
         quoteJsonString "defaultOutputModes" ++ ":" ++
           ((serializeJson agentSortedKeys
             (.arr (r.defaultOutputModes.map .str))).getD "null"),
         quoteJsonString "description" ++ ":" ++ quoteJsonString r.description,
         quoteJsonString "metadata" ++ ":" ++
           ((serializeJson agentSortedKeys (.obj r.metadata)).getD "null"),
         quoteJsonString "name" ++ ":" ++ quoteJsonString r.name,
         quoteJsonString "tags" ++ ":" ++
           ((serializeJson agentSortedKeys (.arr (r.tags.map .str))).getD
             "null")] ++ "\x7d") := rfl

/-- The metadata object of every normalized record serializes to the
empty JSON object under the record's replacer array: none of the twelve
metadata keys occurs among the nine top-level keys. -/
theorem metadataSerializesEmpty (a : SubgraphAgent) (reg : RegistrationFile) :
    serializeJson agentSortedKeys
      (.obj (toSemanticAgentRecord a reg).metadata) = some "\x7b\x7d" := rfl

/-- C10.  Two source records whose canonical records agree outside the
metadata field always produce the same fingerprint: the hasher
serializes with the replacer array of sorted top-level keys, which
excludes every nested metadata key, so the metadata member always
serializes as the empty object. -/
theorem c10_metadata_excluded_from_hash (a₁ a₂ : SubgraphAgent)
    (r₁ r₂ : RegistrationFile)
    (h1 : (toSemanticAgentRecord a₁ r₁).chainId =
      (toSemanticAgentRecord a₂ r₂).chainId)
    (h2 : (toSemanticAgentRecord a₁ r₁).agentId =
      (toSemanticAgentRecord a₂ r₂).agentId)
    (h3 : (toSemanticAgentRecord a₁ r₁).name =
      (toSemanticAgentRecord a₂ r₂).name)
    (h4 : (toSemanticAgentRecord a₁ r₁).description =
      (toSemanticAgentRecord a₂ r₂).description)
    (h5 : (toSemanticAgentRecord a₁ r₁).capabilities =
      (toSemanticAgentRecord a₂ r₂).capabilities)
    (h6 : (toSemanticAgentRecord a₁ r₁).defaultInputModes =
      (toSemanticAgentRecord a₂ r₂).defaultInputModes)
    (h7 : (toSemanticAgentRecord a₁ r₁).defaultOutputModes =
      (toSemanticAgentRecord a₂ r₂).defaultOutputModes)
    (h8 : (toSemanticAgentRecord a₁ r₁).tags =
      (toSemanticAgentRecord a₂ r₂).tags) :
    computeAgentHash (toSemanticAgentRecord a₁ r₁) =
      computeAgentHash (toSemanticAgentRecord a₂ r₂) := by
  simp only [computeAgentHash, computeAgentHashFields, agentKeys_sorted_eq,
    serializeAgentRecord, metadataSerializesEmpty, h1, h2, h3, h4, h5, h6,
    h7, h8]

/-- C10 witness: the metadata-exclusion theorem applied to two records
that differ only in the ens value inside metadata. -/
theorem c10_metadata_excluded_witness :
    (toSemanticAgentRecord ensAgentA ensRegA).chainId =
      (toSemanticAgentRecord ensAgentA ensRegB).chainId ∧
    (toSemanticAgentRecord ensAgentA ensRegA).tags =
      (toSemanticAgentRecord ensAgentA ensRegB).tags ∧
    computeAgentHash (toSemanticAgentRecord ensAgentA ensRegA) =
      computeAgentHash (toSemanticAgentRecord ensAgentA ensRegB) :=
  ⟨rfl, rfl,
   c10_metadata_excluded_from_hash ensAgentA ensAgentA ensRegA ensRegB
     rfl rfl rfl rfl rfl rfl rfl rfl⟩

/-! ## Trace structure of the batch loop -/

theorem savedStates_append (a b : List Event) :
    savedStates (a ++ b) = savedStates a ++ savedStates b :=
  List.filterMap_append ..

theorem getLast?_cons_or {α : Type} :
    ∀ (l : List α) (a : α), (a :: l).getLast? = l.getLast?.or (some a)
  | [], _ => rfl
  | b :: bs, a => by
    rw [List.getLast?_cons_cons, getLast?_cons_or bs b]
    cases hg : bs.getLast? <;> simp [Option.or]

theorem savedWatermarksAt_append (k : String) (a b : List Event) :
    savedWatermarksAt k (a ++ b) =
      savedWatermarksAt k a ++ savedWatermarksAt k b := by
  unfold savedWatermarksAt
  rw [savedStates_append, List.filterMap_append]

theorem indexAgents_events (env : Env) (ck : String)
    (rs : List SemanticAgentRecord) :
    ∀ ev ∈ (indexAgents env ck rs).1,
      eventChainKey ev = some ck ∧ isSaveEvent ev = false := by
  match rs with
  | [] => intro ev h; exact absurd h (List.not_mem_nil ev)
  | [r] =>
    intro ev h
    rcases List.mem_singleton.mp h with rfl
    exact ⟨rfl, rfl⟩
  | r₁ :: r₂ :: rest =>
    intro ev h
    rcases List.mem_singleton.mp h with rfl
    exact ⟨rfl, rfl⟩

theorem indexAgents_savedStates (env : Env) (ck : String)
    (rs : List SemanticAgentRecord) :
    savedStates (indexAgents env ck rs).1 = [] := by
  match rs with
  | [] => rfl
  | [r] => rfl
  | r₁ :: r₂ :: rest => rfl

/-- What one batch body guarantees: every event belongs to the chain
being processed; a failing batch persists nothing and its trace holds no
save event; a successful batch persists exactly the state obtained by
writing the new chain entry into the incoming state, and the new chain
entry carries the prepared maximum watermark. -/
theorem processBatch_spec (env : Env) (cfg : RunnerConfig) (ck : String)
    (st : SemanticSyncState) (cs : ChainSyncState)
    (agents : List SubgraphAgent) (bev : List Event)
    (res : Except Err (SemanticSyncState × ChainSyncState × String × Bool))
    (hb : processBatch env cfg ck st cs agents = (bev, res)) :
    (∀ ev ∈ bev, eventChainKey ev = some ck) ∧
    (∀ e, res = .error e →
      savedStates bev = [] ∧ ∀ ev ∈ bev, isSaveEvent ev = false) ∧
    (∀ st1 cs1 mx dwk, res = .ok (st1, cs1, mx, dwk) →
      st1 = { chains := jsSet st.chains ck cs1 } ∧
      savedStates bev = [st1] ∧
      cs1.lastUpdatedAt =
        (prepareAgents cfg.includeOrphanedAgents agents cs).maxUpdatedAt ∧
      mx = (prepareAgents cfg.includeOrphanedAgents agents cs).maxUpdatedAt) := by
  simp only [processBatch] at hb
  rcases hiw : (if (prepareAgents cfg.includeOrphanedAgents agents
      cs).toIndex.length > 0 then
    indexAgents env ck (prepareAgents cfg.includeOrphanedAgents agents
      cs).toIndex
    else ([], Except.ok ())) with ⟨iev, ires⟩
  have hiev : (∀ ev ∈ iev, eventChainKey ev = some ck ∧
      isSaveEvent ev = false) ∧ savedStates iev = [] := by
    by_cases hc : (prepareAgents cfg.includeOrphanedAgents agents
        cs).toIndex.length > 0
    · rw [if_pos hc] at hiw
      constructor
      · intro ev hev
        exact indexAgents_events env ck _ ev (by rw [hiw]; exact hev)
      · have := indexAgents_savedStates env ck
          (prepareAgents cfg.includeOrphanedAgents agents cs).toIndex
        rw [hiw] at this
        exact this
    · rw [if_neg hc] at hiw
      cases hiw
      exact ⟨fun ev hev => absurd hev (List.not_mem_nil ev), rfl⟩
  rw [hiw] at hb
  cases ires with
  | error e =>
    simp only at hb
    cases hb
    refine ⟨fun ev hev => (hiev.1 ev hev).1, fun e' he' => ?_, ?_⟩
    · exact ⟨hiev.2, fun ev hev => (hiev.1 ev hev).2⟩
    · intro st1 cs1 mx dwk hok; cases hok
  | ok u =>
    simp only at hb
    rcases hdw : (if (prepareAgents cfg.includeOrphanedAgents agents
        cs).toDelete.length > 0 then
      ([Event.deletedBatch ck (prepareAgents cfg.includeOrphanedAgents agents
          cs).toDelete],
        env.deleteBatch (prepareAgents cfg.includeOrphanedAgents agents
          cs).toDelete)
      else ([], Except.ok ())) with ⟨dev, dres⟩
    have hdev : (∀ ev ∈ dev, eventChainKey ev = some ck ∧
        isSaveEvent ev = false) ∧ savedStates dev = [] := by
      by_cases hc : (prepareAgents cfg.includeOrphanedAgents agents
          cs).toDelete.length > 0
      · rw [if_pos hc] at hdw
        cases hdw
        refine ⟨?_, rfl⟩
        intro ev hev
        rcases List.mem_singleton.mp hev with rfl
        exact ⟨rfl, rfl⟩
      · rw [if_neg hc] at hdw
        cases hdw
        exact ⟨fun ev hev => absurd hev (List.not_mem_nil ev), rfl⟩
    rw [hdw] at hb
    cases dres with
    | error e =>
      simp only at hb
      cases hb
      refine ⟨?_, fun e' he' => ?_, ?_⟩
      · intro ev hev
        rcases List.mem_append.mp hev with hev | hev
        · exact (hiev.1 ev hev).1
        · exact (hdev.1 ev hev).1
      · constructor
        · rw [savedStates_append, hiev.2, hdev.2]; rfl
        · intro ev hev
          rcases List.mem_append.mp hev with hev | hev
          · exact (hiev.1 ev hev).2
          · exact (hdev.1 ev hev).2
      · intro st1 cs1 mx dwk hok; cases hok
    | ok u' =>
      simp only at hb
      cases hsv : env.save
          { chains := jsSet st.chains ck
              { lastUpdatedAt :=
                  (prepareAgents cfg.includeOrphanedAgents agents
                    cs).maxUpdatedAt
                agentHashes :=
                  some (applyHashes (cs.agentHashes.getD [])
                    (prepareAgents cfg.includeOrphanedAgents agents
                      cs).hashes) } } with
      | error e =>
        rw [hsv] at hb
        simp only at hb
        cases hb
        refine ⟨?_, fun e' he' => ?_, ?_⟩
        · intro ev hev
          rcases List.mem_append.mp hev with hev | hev
          · exact (hiev.1 ev hev).1
          · exact (hdev.1 ev hev).1
        · constructor
          · rw [savedStates_append, hiev.2, hdev.2]; rfl
          · intro ev hev
            rcases List.mem_append.mp hev with hev | hev
            · exact (hiev.1 ev hev).2
            · exact (hdev.1 ev hev).2
        · intro st1 cs1 mx dwk hok; cases hok
      | ok u'' =>
        rw [hsv] at hb
        simp only at hb
        cases hb
        refine ⟨?_, fun e' he' => ?_, ?_⟩
        · intro ev hev
          rcases List.mem_append.mp hev with hev | hev
          · rcases List.mem_append.mp hev with hev | hev
            · exact (hiev.1 ev hev).1
            · exact (hdev.1 ev hev).1
          · rcases List.mem_singleton.mp hev with rfl
            rfl
        · cases he'
        · intro st1 cs1 mx dwk hok
          cases hok
          refine ⟨rfl, ?_, rfl, rfl⟩
          rw [savedStates_append, savedStates_append, hiev.2, hdev.2]
          rfl

/-- What the whole batch loop guarantees, by induction over the fuel:
saves never touch another chain's entry; every save carries an entry for
the processed chain; a normal completion returns exactly the last
persisted state (or the incoming state when nothing was persisted), at a
watermark whose next fetch is the empty page; every event belongs to the
processed chain; and a failing loop ends on the failing call, not on a
save. -/
theorem processChainLoop_spec (env : Env) (cfg : RunnerConfig)
    (ck : String) :
    ∀ (fuel : Nat) (st : SemanticSyncState) (cs : ChainSyncState)
      (lu : String) (pa : Bool) (tr : List Event)
      (res : RunResult (SemanticSyncState × Bool)),
      processChainLoop env cfg ck fuel st cs lu pa = (tr, res) →
      jsGet st.chains ck = some cs → cs.lastUpdatedAt = lu →
      (∀ k, k ≠ ck →
        ∀ s' ∈ savedStates tr, jsGet s'.chains k = jsGet st.chains k) ∧
      (∀ s' ∈ savedStates tr, ∃ c, jsGet s'.chains ck = some c) ∧
      (∀ st' pa', res = .ok (st', pa') → st' = (lastSaved tr).getD st) ∧
      (∀ st' pa', res = .ok (st', pa') →
        ∃ cs', jsGet st'.chains ck = some cs' ∧
          env.fetch ck cs'.lastUpdatedAt cfg.batchSize = .ok []) ∧
      (∀ ev ∈ tr, eventChainKey ev = some ck) ∧
      (∀ e, res = .fail e →
        ∃ evl, tr.getLast? = some evl ∧ isSaveEvent evl = false) := by
  intro fuel
  induction fuel with
  | zero =>
    intro st cs lu pa tr res h hinv hlu
    rw [processChainLoop] at h
    cases h
    refine ⟨?_, ?_, ?_, ?_, ?_, ?_⟩
    · intro k hk s' hs'; exact absurd hs' (List.not_mem_nil s')
    · intro s' hs'; exact absurd hs' (List.not_mem_nil s')
    · intro st' pa' hok; cases hok
    · intro st' pa' hok; cases hok
    · intro ev hev; exact absurd hev (List.not_mem_nil ev)
    · intro e hf; cases hf
  | succ fuel ih =>
    intro st cs lu pa tr res h hinv hlu
    simp only [processChainLoop] at h
    rcases hfetch : env.fetch ck lu cfg.batchSize with e | agents <;>
      rw [hfetch] at h <;> dsimp only at h
    · cases h
      refine ⟨?_, ?_, ?_, ?_, ?_, ?_⟩
      · intro k hk s' hs'; exact absurd hs' (List.not_mem_nil s')
      · intro s' hs'; exact absurd hs' (List.not_mem_nil s')
      · intro st' pa' hok; cases hok
      · intro st' pa' hok; cases hok
      · intro ev hev
        rcases List.mem_singleton.mp hev with rfl
        rfl
      · intro e' hf
        exact ⟨.fetched ck lu cfg.batchSize, rfl, rfl⟩
    · by_cases hemp : agents.isEmpty = true
      · rw [if_pos hemp] at h
        cases h
        refine ⟨?_, ?_, ?_, ?_, ?_, ?_⟩
        · intro k hk s' hs'; exact absurd hs' (List.not_mem_nil s')
        · intro s' hs'; exact absurd hs' (List.not_mem_nil s')
        · intro st' pa' hok
          cases hok
          rfl
        · intro st' pa' hok
          cases hok
          refine ⟨cs, hinv, ?_⟩
          rw [hlu, ← List.isEmpty_iff.mp hemp]
          exact hfetch
        · intro ev hev
          rcases List.mem_singleton.mp hev with rfl
          rfl
        · intro e' hf; cases hf
      · rw [if_neg (by simp [hemp])] at h
        rcases hbatch : processBatch env cfg ck st cs agents with ⟨bev, bres⟩
        rw [hbatch] at h
        have hbs := processBatch_spec env cfg ck st cs agents bev bres hbatch
        cases bres with
        | error e =>
          simp only at h
          cases h
          obtain ⟨hsaves, hnosave⟩ := hbs.2.1 e rfl
          have hsst : savedStates ([Event.fetched ck lu cfg.batchSize] ++
              bev) = [] := by
            rw [savedStates_append, hsaves]
            rfl
          refine ⟨?_, ?_, ?_, ?_, ?_, ?_⟩
          · intro k hk s' hs'
            rw [hsst] at hs'
            exact absurd hs' (List.not_mem_nil s')
          · intro s' hs'
            rw [hsst] at hs'
            exact absurd hs' (List.not_mem_nil s')
          · intro st' pa' hok; cases hok
          · intro st' pa' hok; cases hok
          · intro ev hev
            rcases List.mem_append.mp hev with hev | hev
            · rcases List.mem_singleton.mp hev with rfl
              rfl
            · exact hbs.1 ev hev
          · intro e' hf
            rcases hgl : ([Event.fetched ck lu cfg.batchSize] ++ bev).getLast?
              with _ | evl
            · exact absurd hgl (by simp)
            · refine ⟨evl, rfl, ?_⟩
              rcases List.mem_append.mp (List.mem_of_mem_getLast? hgl) with
                hm | hm
              · rcases List.mem_singleton.mp hm with rfl
                rfl
              · exact hnosave evl hm
        | ok quad =>
          obtain ⟨state1, cs1, maxU, didWork⟩ := quad
          obtain ⟨hst1, hsaves1, hcs1lu, hmx⟩ :=
            hbs.2.2 state1 cs1 maxU didWork rfl
          simp only at h
          rcases hrec : processChainLoop env cfg ck fuel state1 cs1 maxU
              (pa || didWork) with ⟨tr₂, res₂⟩
          rw [hrec] at h
          simp only at h
          cases h
          have hinv1 : jsGet state1.chains ck = some cs1 := by
            rw [hst1]; exact jsGet_jsSet_self ..
          have hlu1 : cs1.lastUpdatedAt = maxU := by rw [hcs1lu, hmx]
          obtain ⟨ih1, ih2, ih3, ih4, ih5, ih6⟩ :=
            ih state1 cs1 maxU (pa || didWork) tr₂ res hrec hinv1 hlu1
          have hsavestr :
              savedStates (([Event.fetched ck lu cfg.batchSize] ++ bev) ++
                tr₂) = state1 :: savedStates tr₂ := by
            rw [savedStates_append, savedStates_append]
            rw [show savedStates [Event.fetched ck lu cfg.batchSize] = []
              from rfl, hsaves1]
            rfl
          refine ⟨?_, ?_, ?_, ?_, ?_, ?_⟩
          · intro k hk s' hs'
            rw [hsavestr] at hs'
            have hframe1 : jsGet state1.chains k = jsGet st.chains k := by
              rw [hst1]
              exact jsGet_jsSet_ne st.chains ck k cs1 hk
            rcases List.mem_cons.mp hs' with rfl | hs'
            · exact hframe1
            · rw [ih1 k hk s' hs']
              exact hframe1
          · intro s' hs'
            rw [hsavestr] at hs'
            rcases List.mem_cons.mp hs' with rfl | hs'
            · exact ⟨cs1, hinv1⟩
            · exact ih2 s' hs'
          · intro st' pa' hok
            have hthis := ih3 st' pa' hok
            unfold lastSaved at hthis ⊢
            rw [hsavestr, getLast?_cons_or]
            cases hls : (savedStates tr₂).getLast? with
            | none => rw [hls] at hthis; simpa [Option.or] using hthis
            | some x => rw [hls] at hthis; simpa [Option.or] using hthis
          · intro st' pa' hok
            exact ih4 st' pa' hok
          · intro ev hev
            rcases List.mem_append.mp hev with hev | hev
            · rcases List.mem_append.mp hev with hev | hev
              · rcases List.mem_singleton.mp hev with rfl
                rfl
              · exact hbs.1 ev hev
            · exact ih5 ev hev
          · intro e' hf
            obtain ⟨evl, hgl, hsv⟩ := ih6 e' hf
            refine ⟨evl, ?_, hsv⟩
            rw [List.getLast?_append, hgl]
            rfl

/-! ## Properties of ensureChainState -/

/-- The ensured state always carries the returned chain entry. -/
theorem ensureChainState_self (st : SemanticSyncState) (ck : String) :
    jsGet (ensureChainState st ck).1.chains ck =
      some (ensureChainState st ck).2 := by
  unfold ensureChainState
  cases h : jsGet st.chains ck with
  | some cs0 => exact jsGet_jsSet_self ..
  | none =>
    cases hl : jsGet st.chains "__legacy" with
    | some leg => dsimp only; exact jsGet_jsSet_self ..
    | none => dsimp only; exact jsGet_jsSet_self ..

/-- Ensuring one chain leaves every other non-legacy entry unchanged. -/
theorem ensureChainState_frame (st : SemanticSyncState) (ck k : String)
    (hk : k ≠ ck) (hleg : k ≠ "__legacy") :
    jsGet (ensureChainState st ck).1.chains k = jsGet st.chains k := by
  unfold ensureChainState
  cases h : jsGet st.chains ck with
  | some cs0 => exact jsGet_jsSet_ne _ _ _ _ hk
  | none =>
    cases hl : jsGet st.chains "__legacy" with
    | some leg =>
      dsimp only
      rw [jsGet_jsSet_ne _ _ _ _ hk, jsGet_jsDel_ne _ _ _ hleg,
        jsGet_jsSet_ne _ _ _ _ hk]
    | none => dsimp only; exact jsGet_jsSet_ne _ _ _ _ hk

/-- When the requested chain already has an entry, ensuring it leaves
every other entry, the legacy one included, unchanged. -/
theorem ensureChainState_frame_of_present (st : SemanticSyncState)
    (ck k : String) (hk : k ≠ ck) (cs0 : ChainSyncState)
    (hp : jsGet st.chains ck = some cs0) :
    jsGet (ensureChainState st ck).1.chains k = jsGet st.chains k := by
  unfold ensureChainState
  rw [hp]
  exact jsGet_jsSet_ne _ _ _ _ hk

/-- The ensured entry keeps the watermark of an existing entry. -/
theorem ensureChainState_watermark_of_present (st : SemanticSyncState)
    (ck : String) (cs0 : ChainSyncState)
    (hp : jsGet st.chains ck = some cs0) :
    (ensureChainState st ck).2.lastUpdatedAt = cs0.lastUpdatedAt := by
  unfold ensureChainState
  rw [hp]

/-- Ensuring a non-legacy chain never introduces a legacy entry. -/
theorem ensureChainState_legacy_none (st : SemanticSyncState) (ck : String)
    (hck : ck ≠ "__legacy") (hnl : jsGet st.chains "__legacy" = none) :
    jsGet (ensureChainState st ck).1.chains "__legacy" = none := by
  unfold ensureChainState
  cases h : jsGet st.chains ck with
  | some cs0 =>
    rw [jsGet_jsSet_ne _ _ _ _ (fun hh => hck hh.symm)]
    exact hnl
  | none =>
    rw [hnl]
    dsimp only
    rw [jsGet_jsSet_ne _ _ _ _ (fun hh => hck hh.symm)]
    exact hnl

/-- Without a legacy entry, ensuring a chain preserves the semantic view
of its own entry: an absent entry and the fresh genesis entry read the
same, and normalizing the hash map does not change the view. -/
theorem ensureChainState_view (st : SemanticSyncState) (ck : String)
    (hnl : jsGet st.chains "__legacy" = none) :
    entryView (some (ensureChainState st ck).2) =
      entryView (jsGet st.chains ck) := by
  unfold ensureChainState
  cases h : jsGet st.chains ck with
  | some cs0 => simp [entryView]
  | none =>
    rw [hnl]
    simp [entryView]

/-! ## The processChain wrapper -/

/-- What processing one chain guarantees, combining the entry creation
with the loop invariants. -/
theorem processChain_spec (env : Env) (cfg : RunnerConfig) (fuel : Nat)
    (st : SemanticSyncState) (ck : String) (tr : List Event)
    (res : RunResult (SemanticSyncState × Bool))
    (h : processChain env cfg fuel st ck = (tr, res)) :
    (∀ k, k ≠ ck → ∀ s' ∈ savedStates tr,
      jsGet s'.chains k = jsGet (ensureChainState st ck).1.chains k) ∧
    (∀ s' ∈ savedStates tr, ∃ c, jsGet s'.chains ck = some c) ∧
    (∀ st' pa', res = .ok (st', pa') →
      st' = (lastSaved tr).getD (ensureChainState st ck).1) ∧
    (∀ st' pa', res = .ok (st', pa') →
      ∃ cs', jsGet st'.chains ck = some cs' ∧
        env.fetch ck cs'.lastUpdatedAt cfg.batchSize = .ok []) ∧
    (∀ ev ∈ tr, eventChainKey ev = some ck) ∧
    (∀ e, res = .fail e →
      ∃ evl, tr.getLast? = some evl ∧ isSaveEvent evl = false) := by
  unfold processChain at h
  exact processChainLoop_spec env cfg ck fuel (ensureChainState st ck).1
    (ensureChainState st ck).2 (ensureChainState st ck).2.lastUpdatedAt false
    tr res h (ensureChainState_self st ck) rfl

/-- C9.  Multi-partition isolation: processing any batch sequence of
partition A never alters partition B's stored entry, for distinct A and
B that both already have an entry: every state the checkpoint store
accepts during the processing, and the final in-memory state, carry B's
entry byte for byte unchanged. -/
theorem c9_partition_isolation (env : Env) (cfg : RunnerConfig) (fuel : Nat)
    (state : SemanticSyncState) (A B : String) (csA csB : ChainSyncState)
    (hAB : B ≠ A) (hA : jsGet state.chains A = some csA)
    (hB : jsGet state.chains B = some csB) (tr : List Event)
    (res : RunResult (SemanticSyncState × Bool))
    (h : processChain env cfg fuel state A = (tr, res)) :
    (∀ s' ∈ savedStates tr, jsGet s'.chains B = some csB) ∧
    (∀ st' pa', res = .ok (st', pa') → jsGet st'.chains B = some csB) := by
  obtain ⟨p1, _, p3, _, _, _⟩ := processChain_spec env cfg fuel state A tr res h
  have hframe : jsGet (ensureChainState state A).1.chains B = some csB := by
    rw [ensureChainState_frame_of_present state A B hAB csA hA]
    exact hB
  constructor
  · intro s' hs'
    rw [p1 B hAB s' hs']
    exact hframe
  · intro st' pa' hok
    rw [p3 st' pa' hok]
    cases hls : lastSaved tr with
    | none => exact hframe
    | some sl =>
      have hmem : sl ∈ savedStates tr := List.mem_of_mem_getLast? hls
      simp only [Option.getD]
      rw [p1 B hAB sl hmem]
      exact hframe

/-- C9 witness: the isolation theorem applied to a two-chain state while
chain one ingests a one-row dataset. -/
theorem c9_partition_isolation_witness :
    (("2" : String) ≠ "1") ∧
    jsGet twoChainState.chains "1" =
      some { lastUpdatedAt := "0", agentHashes := some [] } ∧
    jsGet twoChainState.chains "2" =
      some { lastUpdatedAt := "7", agentHashes := some [("x", "h")] } ∧
    (∀ s' ∈ savedStates
        (processChain (datasetEnv oneRowDataset)
          { batchSize := 10, includeOrphanedAgents := true } 5 twoChainState
          "1").1,
      jsGet s'.chains "2" =
        some { lastUpdatedAt := "7", agentHashes := some [("x", "h")] }) :=
  ⟨by decide, rfl, rfl,
   (c9_partition_isolation (datasetEnv oneRowDataset)
     { batchSize := 10, includeOrphanedAgents := true } 5 twoChainState
     "1" "2" { lastUpdatedAt := "0", agentHashes := some [] }
     { lastUpdatedAt := "7", agentHashes := some [("x", "h")] }
     (by decide) rfl rfl _ _ rfl).1⟩

/-! ## Idempotence of a second run -/

/-- A chain whose checkpoint already exhausts the source processes in
one loop iteration: a single empty fetch, no writes, and the entry is
merely normalized in place. -/
theorem processChain_done (env : Env) (cfg : RunnerConfig) (fuel : Nat)
    (st : SemanticSyncState) (ck : String) (cs : ChainSyncState)
    (hp : jsGet st.chains ck = some cs)
    (hf : env.fetch ck cs.lastUpdatedAt cfg.batchSize = .ok []) :
    processChain env cfg (fuel + 1) st ck =
      ([.fetched ck cs.lastUpdatedAt cfg.batchSize],
        .ok ({ chains := jsSet st.chains ck (normalizeHashes cs) },
          false)) := by
  unfold processChain ensureChainState
  rw [hp]
  dsimp only
  simp only [processChainLoop, hf]
  rfl

/-- Processing a chain that completes normally preserves the
fetch-exhausted property of every non-legacy chain. -/
theorem processChain_preserves_done (env : Env) (cfg : RunnerConfig)
    (fuel : Nat) (st : SemanticSyncState) (ck k : String) (tr : List Event)
    (st' : SemanticSyncState) (pa' : Bool)
    (h : processChain env cfg fuel st ck = (tr, .ok (st', pa')))
    (hk : k ≠ "__legacy") (hd : FetchDone env cfg st k) :
    FetchDone env cfg st' k := by
  obtain ⟨p1, _, p3, p4, _, _⟩ :=
    processChain_spec env cfg fuel st ck tr (.ok (st', pa')) h
  by_cases hkc : k = ck
  · subst hkc
    obtain ⟨cs', hcs', hf'⟩ := p4 st' pa' rfl
    exact ⟨cs', hcs', hf'⟩
  · obtain ⟨cs, hcs, hfd⟩ := hd
    have hkeep : jsGet st'.chains k = jsGet st.chains k := by
      rw [p3 st' pa' rfl]
      cases hls : lastSaved tr with
      | none =>
        exact ensureChainState_frame st ck k hkc hk
      | some sl =>
        simp only [Option.getD]
        rw [p1 k hkc sl (List.mem_of_mem_getLast? hls)]
        exact ensureChainState_frame st ck k hkc hk
    exact ⟨cs, by rw [hkeep]; exact hcs, hfd⟩

/-- After a run of the chain list completes, every processed chain is
fetch-exhausted in the final state, and chains already exhausted stay
exhausted. -/
theorem runChains_all_done (env : Env) (cfg : RunnerConfig) (fuel : Nat) :
    ∀ (ts : List String) (st : SemanticSyncState) (tr : List Event)
      (s' : SemanticSyncState),
      runChains env cfg fuel ts st = (tr, .ok s') → "__legacy" ∉ ts →
      (∀ k, k ≠ "__legacy" → FetchDone env cfg st k →
        FetchDone env cfg s' k) ∧
      (∀ ck ∈ ts, FetchDone env cfg s' ck)
  | [], st, tr, s' => by
    intro h _
    rw [runChains] at h
    cases h
    exact ⟨fun k _ hd => hd, fun ck hck => absurd hck (List.not_mem_nil ck)⟩
  | ck :: rest, st, tr, s' => by
    intro h hleg
    have hckleg : ck ≠ "__legacy" := fun hh => hleg (hh ▸ List.mem_cons_self ck rest)
    have hrestleg : "__legacy" ∉ rest := fun hh => hleg (List.mem_cons_of_mem ck hh)
    rw [runChains] at h
    rcases hpc : processChain env cfg fuel st ck with ⟨tr₁, res₁⟩
    rw [hpc] at h
    cases res₁ with
    | fail e => simp only at h; cases h
    | hung => simp only at h; cases h
    | ok pair =>
      obtain ⟨s₁, pa₁⟩ := pair
      simp only at h
      rcases hrest : runChains env cfg fuel rest s₁ with ⟨tr₂, res₂⟩
      rw [hrest] at h
      simp only at h
      cases h
      obtain ⟨ihpres, ihdone⟩ :=
        runChains_all_done env cfg fuel rest s₁ tr₂ s' hrest hrestleg
      refine ⟨?_, ?_⟩
      · intro k hk hd
        exact ihpres k hk
          (processChain_preserves_done env cfg fuel st ck k tr₁ s₁ pa₁ hpc
            hk hd)
      · intro c hc
        rcases List.mem_cons.mp hc with rfl | hc
        · obtain ⟨_, _, p3, p4, _, _⟩ :=
            processChain_spec env cfg fuel st c tr₁ (.ok (s₁, pa₁)) hpc
          obtain ⟨cs', hcs', hf'⟩ := p4 s₁ pa₁ rfl
          exact ihpres c hckleg ⟨cs', hcs', hf'⟩
        · exact ihdone c hc

/-- A run over chains that are all fetch-exhausted performs one empty
fetch per chain: no index and no delete calls, and it completes
normally, leaving every chain exhausted. -/
theorem runChains_silent (env : Env) (cfg : RunnerConfig) (fuel : Nat) :
    ∀ (ts : List String) (st : SemanticSyncState),
      (∀ ck ∈ ts, FetchDone env cfg st ck) →
      ∃ tr s', runChains env cfg (fuel + 1) ts st = (tr, .ok s') ∧
        countIndexCalls tr = 0 ∧ countDeleteCalls tr = 0 ∧
        (∀ k, FetchDone env cfg st k → FetchDone env cfg s' k)
  | [], st => by
    intro _
    exact ⟨[], st, rfl, rfl, rfl, fun k hd => hd⟩
  | ck :: rest, st => by
    intro hall
    obtain ⟨cs, hcs, hf⟩ := hall ck (List.mem_cons_self ck rest)
    have hdone := processChain_done env cfg fuel st ck cs hcs hf
    have hpres : ∀ k, FetchDone env cfg st k →
        FetchDone env cfg
          ({ chains := jsSet st.chains ck (normalizeHashes cs) } :
              SemanticSyncState) k := by
      intro k hd
      by_cases hkc : k = ck
      · subst hkc
        exact ⟨normalizeHashes cs, jsGet_jsSet_self .., hf⟩
      · obtain ⟨c, hc, hcf⟩ := hd
        exact ⟨c, by rw [jsGet_jsSet_ne _ _ _ _ hkc]; exact hc, hcf⟩
    obtain ⟨tr₂, s', hrest, hci, hcd, hpres₂⟩ :=
      runChains_silent env cfg fuel rest
        ({ chains := jsSet st.chains ck (normalizeHashes cs) })
        (fun c hc => hpres c (hall c (List.mem_cons_of_mem ck hc)))
    refine ⟨[.fetched ck cs.lastUpdatedAt cfg.batchSize] ++ tr₂, s', ?_,
      ?_, ?_, fun k hd => hpres₂ k (hpres k hd)⟩
    · rw [runChains, hdone]
      simp only [hrest]
    · rw [countIndexCalls, List.countP_append]
      rw [countIndexCalls] at hci
      rw [hci]
      rfl
    · rw [countDeleteCalls, List.countP_append]
      rw [countDeleteCalls] at hcd
      rw [hcd]
      rfl

/-- C3.  Idempotence: after a completed run over a fixed dataset with no
source-side changes, a second run issues zero index calls and zero
delete calls and completes normally. -/
theorem c3_second_run_is_silent (ds : String → List SubgraphAgent)
    (cfg : RunnerConfig) (fuel fuel₂ : Nat) (targets : List String)
    (s₀ s₁ : SemanticSyncState) (tr₁ : List Event)
    (hleg : "__legacy" ∉ targets)
    (h1 : runFromState (datasetEnv ds) cfg fuel targets s₀ = (tr₁, .ok s₁)) :
    ∃ tr₂ s₂,
      runFromState (datasetEnv ds) cfg (fuel₂ + 1) targets s₁ =
        (tr₂, .ok s₂) ∧
      countIndexCalls tr₂ = 0 ∧ countDeleteCalls tr₂ = 0 := by
  unfold runFromState at h1 ⊢
  by_cases hemp : targets.isEmpty = true
  · rw [if_pos hemp] at h1 ⊢
    cases h1
    exact ⟨[], s₀, rfl, rfl, rfl⟩
  · rw [if_neg hemp] at h1 ⊢
    rcases hrc : runChains (datasetEnv ds) cfg fuel targets s₀ with
      ⟨trc, resc⟩
    rw [hrc] at h1
    cases resc with
    | fail e => simp only at h1; cases h1
    | hung => simp only at h1; cases h1
    | ok sc =>
      simp only at h1
      have hsv : (datasetEnv ds).save sc = .ok () := rfl
      rw [hsv] at h1
      simp only at h1
      cases h1
      obtain ⟨_, hdone⟩ :=
        runChains_all_done (datasetEnv ds) cfg fuel targets s₀ trc s₁ hrc
          hleg
      obtain ⟨tr₂, s₂, hrun₂, hci, hcd, _⟩ :=
        runChains_silent (datasetEnv ds) cfg fuel₂ targets s₁ hdone
      rw [hrun₂]
      refine ⟨tr₂ ++ [.savedFinal s₂], s₂, rfl, ?_, ?_⟩
      · rw [countIndexCalls, List.countP_append]
        rw [countIndexCalls] at hci
        rw [hci]
        rfl
      · rw [countDeleteCalls, List.countP_append]
        rw [countDeleteCalls] at hcd
        rw [hcd]
        rfl

/-- C3 witness: a one-chain one-row dataset synced from genesis, then
synced again. -/
theorem c3_second_run_is_silent_witness :
    (("__legacy" : String) ∉ ["1"]) ∧
    ∃ tr₂ s₂,
      runFromState (datasetEnv oneRowDataset)
          { batchSize := 10, includeOrphanedAgents := true } 3 ["1"]
          (match runFromState (datasetEnv oneRowDataset)
            { batchSize := 10, includeOrphanedAgents := true } 5 ["1"]
            { chains := [] } with
          | (_, .ok s) => s
          | _ => { chains := [] }) =
        (tr₂, .ok s₂) ∧
      countIndexCalls tr₂ = 0 ∧ countDeleteCalls tr₂ = 0 := by
  refine ⟨by decide, ?_⟩
  exact c3_second_run_is_silent oneRowDataset
    { batchSize := 10, includeOrphanedAgents := true } 5 2 ["1"]
    { chains := [] } _ _ (by decide) rfl

/-! ## Persisted state versus in-memory state -/

/-- After one chain completes, the persisted state reads, for every
non-legacy key, the same as the in-memory result state (the in-memory
state may in addition carry the undefined-to-empty hash normalization
and fresh genesis entries, which the view identifies); legacy entries
never appear when the incoming state had none. -/
theorem processChain_persisted_view (env : Env) (cfg : RunnerConfig)
    (fuel : Nat) (st : SemanticSyncState) (ck : String) (tr : List Event)
    (s₁ : SemanticSyncState) (pa : Bool)
    (h : processChain env cfg fuel st ck = (tr, .ok (s₁, pa)))
    (hck : ck ≠ "__legacy") (hnl : jsGet st.chains "__legacy" = none) :
    (∀ k, k ≠ "__legacy" →
      entryView (jsGet ((lastSaved tr).getD st).chains k) =
        entryView (jsGet s₁.chains k)) ∧
    jsGet s₁.chains "__legacy" = none ∧
    (∀ s'' ∈ savedStates tr, jsGet s''.chains "__legacy" = none) := by
  obtain ⟨p1, _, p3, _, _, _⟩ :=
    processChain_spec env cfg fuel st ck tr (.ok (s₁, pa)) h
  have hens := ensureChainState_legacy_none st ck hck hnl
  have hsavleg : ∀ s'' ∈ savedStates tr,
      jsGet s''.chains "__legacy" = none := by
    intro s'' hs''
    rw [p1 "__legacy" (fun hh => hck hh.symm) s'' hs'']
    exact hens
  have hs1 := p3 s₁ pa rfl
  refine ⟨?_, ?_, hsavleg⟩
  · intro k hk
    cases hls : lastSaved tr with
    | some sl =>
      rw [hs1, hls]
      rfl
    | none =>
      rw [hs1, hls]
      simp only [Option.getD]
      by_cases hkc : k = ck
      · subst hkc
        rw [ensureChainState_self st k]
        exact (ensureChainState_view st k hnl).symm ▸
          (ensureChainState_view st k hnl).symm
      · rw [ensureChainState_frame st ck k hkc hk]
  · cases hls : lastSaved tr with
    | some sl =>
      rw [hs1, hls]
      exact hsavleg sl (List.mem_of_mem_getLast? hls)
    | none =>
      rw [hs1, hls]
      exact hens

/-- The persisted-view relation and legacy absence extend over a whole
successful chain list. -/
theorem runChains_persisted_view (env : Env) (cfg : RunnerConfig)
    (fuel : Nat) :
    ∀ (ts : List String) (st : SemanticSyncState) (tr : List Event)
      (s' : SemanticSyncState),
      runChains env cfg fuel ts st = (tr, .ok s') →
      "__legacy" ∉ ts → jsGet st.chains "__legacy" = none →
      (∀ k, k ≠ "__legacy" →
        entryView (jsGet ((lastSaved tr).getD st).chains k) =
          entryView (jsGet s'.chains k)) ∧
      jsGet s'.chains "__legacy" = none ∧
      (∀ s'' ∈ savedStates tr, jsGet s''.chains "__legacy" = none)
  | [], st, tr, s' => by
    intro h _ hnl
    rw [runChains] at h
    cases h
    exact ⟨fun k _ => rfl, hnl, fun s'' hs'' => absurd hs''
      (List.not_mem_nil s'')⟩
  | ck :: rest, st, tr, s' => by
    intro h hleg hnl
    have hckleg : ck ≠ "__legacy" :=
      fun hh => hleg (hh ▸ List.mem_cons_self ck rest)
    have hrestleg : "__legacy" ∉ rest :=
      fun hh => hleg (List.mem_cons_of_mem ck hh)
    rw [runChains] at h
    rcases hpc : processChain env cfg fuel st ck with ⟨tr₁, res₁⟩
    rw [hpc] at h
    cases res₁ with
    | fail e => simp only at h; cases h
    | hung => simp only at h; cases h
    | ok pair =>
      obtain ⟨s₁, pa₁⟩ := pair
      simp only at h
      rcases hrest : runChains env cfg fuel rest s₁ with ⟨tr₂, res₂⟩
      rw [hrest] at h
      simp only at h
      cases h
      obtain ⟨v1, l1, sv1⟩ :=
        processChain_persisted_view env cfg fuel st ck tr₁ s₁ pa₁ hpc
          hckleg hnl
      obtain ⟨v2, l2, sv2⟩ :=
        runChains_persisted_view env cfg fuel rest s₁ tr₂ s' hrest
          hrestleg l1
      refine ⟨?_, l2, ?_⟩
      · intro k hk
        unfold lastSaved at v1 v2 ⊢
        rw [savedStates_append, List.getLast?_append]
        cases hls₂ : (savedStates tr₂).getLast? with
        | some sl₂ =>
          rw [hls₂] at v2
          simp only [Option.or] at v2 ⊢
          exact v2 k hk
        | none =>
          rw [hls₂] at v2
          simp only [Option.or, Option.getD] at v2 ⊢
          rw [← v2 k hk]
          exact v1 k hk
      · intro s'' hs''
        rw [savedStates_append] at hs''
        rcases List.mem_append.mp hs'' with hs'' | hs''
        · exact sv1 s'' hs''
        · exact sv2 s'' hs''

/-! ## Failure decomposition of a run -/

/-- Every event of a chain-list run belongs to one of the processed
chains. -/
theorem runChains_events (env : Env) (cfg : RunnerConfig) (fuel : Nat) :
    ∀ (ts : List String) (st : SemanticSyncState) (tr : List Event)
      (res : RunResult SemanticSyncState),
      runChains env cfg fuel ts st = (tr, res) →
      ∀ ev ∈ tr, ∃ ck ∈ ts, eventChainKey ev = some ck
  | [], st, tr, res => by
    intro h ev hev
    rw [runChains] at h
    cases h
    exact absurd hev (List.not_mem_nil ev)
  | ck :: rest, st, tr, res => by
    intro h ev hev
    rw [runChains] at h
    rcases hpc : processChain env cfg fuel st ck with ⟨tr₁, res₁⟩
    rw [hpc] at h
    have hp5 := (processChain_spec env cfg fuel st ck tr₁ res₁ hpc).2.2.2.2.1
    cases res₁ with
    | fail e =>
      simp only at h
      cases h
      exact ⟨ck, List.mem_cons_self ck rest, hp5 ev hev⟩
    | hung =>
      simp only at h
      cases h
      exact ⟨ck, List.mem_cons_self ck rest, hp5 ev hev⟩
    | ok pair =>
      obtain ⟨s₁, pa₁⟩ := pair
      simp only at h
      rcases hrest : runChains env cfg fuel rest s₁ with ⟨tr₂, res₂⟩
      rw [hrest] at h
      simp only at h
      cases h
      rcases List.mem_append.mp hev with hev | hev
      · exact ⟨ck, List.mem_cons_self ck rest, hp5 ev hev⟩
      · obtain ⟨c, hc, hck⟩ :=
          runChains_events env cfg fuel rest s₁ tr₂ res hrest ev hev
        exact ⟨c, List.mem_cons_of_mem ck hc, hck⟩

/-- A failing chain-list run splits into a successful prefix, the
failing chain, and nothing after it. -/
theorem runChains_fail_decomp (env : Env) (cfg : RunnerConfig) (fuel : Nat) :
    ∀ (ts : List String) (st : SemanticSyncState) (tr : List Event)
      (e : Err),
      runChains env cfg fuel ts st = (tr, .fail e) →
      ∃ j ck tr₁ tr₂ s₁,
        ts[j]? = some ck ∧
        runChains env cfg fuel (ts.take j) st = (tr₁, .ok s₁) ∧
        processChain env cfg fuel s₁ ck = (tr₂, .fail e) ∧
        tr = tr₁ ++ tr₂
  | [], st, tr, e => by
    intro h
    rw [runChains] at h
    cases h
  | ck :: rest, st, tr, e => by
    intro h
    rw [runChains] at h
    rcases hpc : processChain env cfg fuel st ck with ⟨tr₁, res₁⟩
    rw [hpc] at h
    cases res₁ with
    | fail e' =>
      simp only at h
      cases h
      exact ⟨0, ck, [], tr, st, by simp, rfl, hpc, (List.nil_append tr).symm⟩
    | hung => simp only at h; cases h
    | ok pair =>
      obtain ⟨s₁, pa₁⟩ := pair
      simp only at h
      rcases hrest : runChains env cfg fuel rest s₁ with ⟨tr₂, res₂⟩
      rw [hrest] at h
      simp only at h
      cases h
      obtain ⟨j, c, trp, trf, sp, hj, hpre, hfail, htr⟩ :=
        runChains_fail_decomp env cfg fuel rest s₁ tr₂ e hrest
      refine ⟨j + 1, c, tr₁ ++ trp, trf, sp, by simpa using hj, ?_, hfail,
        ?_⟩
      · rw [show (ck :: rest).take (j + 1) = ck :: rest.take j from rfl,
          runChains, hpc]
        simp only [hpre]
      · rw [htr, List.append_assoc]

/-- C5.  When a query-service or indexing-service call fails during a
run (the checkpoint store itself never failing), the run splits into the
fully completed earlier partitions, the failing partition, and nothing
else: the error propagates out; every event after the successful prefix
belongs to the failing partition; the failing call is the last event and
is not a save, so the failing partition's persisted checkpoint stops at
its last successfully completed batch; and for every earlier, fully
completed partition the final persisted state reads exactly as it was
persisted when that partition completed. -/
theorem c5_failure_isolation (env : Env) (cfg : RunnerConfig) (fuel : Nat)
    (targets : List String) (s₀ : SemanticSyncState) (tr : List Event)
    (e : Err) (hnd : targets.Nodup) (hleg : "__legacy" ∉ targets)
    (hnl : jsGet s₀.chains "__legacy" = none)
    (hsv : ∀ s, env.save s = .ok ())
    (h : runFromState env cfg fuel targets s₀ = (tr, .fail e)) :
    ∃ j ck tr₁ tr₂ s₁,
      targets[j]? = some ck ∧
      runChains env cfg fuel (targets.take j) s₀ = (tr₁, .ok s₁) ∧
      processChain env cfg fuel s₁ ck = (tr₂, .fail e) ∧
      tr = tr₁ ++ tr₂ ∧
      (∀ ev ∈ tr₂, eventChainKey ev = some ck) ∧
      (∃ evl, tr₂.getLast? = some evl ∧ isSaveEvent evl = false) ∧
      (∀ ev ∈ tr, ∃ ck', ck' ∈ targets.take (j + 1) ∧
        eventChainKey ev = some ck') ∧
      (∀ i ck', i < j → targets[i]? = some ck' →
        entryView (jsGet ((lastSaved tr).getD s₀).chains ck') =
          entryView (jsGet ((lastSaved tr₁).getD s₀).chains ck')) := by
  unfold runFromState at h
  by_cases hemp : targets.isEmpty = true
  · rw [if_pos hemp] at h
    cases h
  · rw [if_neg hemp] at h
    rcases hrc : runChains env cfg fuel targets s₀ with ⟨trc, resc⟩
    rw [hrc] at h
    cases resc with
    | hung => simp only at h; cases h
    | ok sc =>
      simp only at h
      rw [hsv sc] at h
      simp only at h
      cases h
    | fail e' =>
      simp only at h
      cases h
      obtain ⟨j, ck, tr₁, tr₂, s₁, hj, hpre, hfail, htr⟩ :=
        runChains_fail_decomp env cfg fuel targets s₀ tr e hrc
      obtain ⟨q1, _, _, _, q5, q6⟩ :=
        processChain_spec env cfg fuel s₁ ck tr₂ (.fail e) hfail
      have hckmem : ck ∈ targets := List.getElem?_mem hj
      have hckleg : ck ≠ "__legacy" := fun hh => hleg (hh ▸ hckmem)
      have htakeleg : "__legacy" ∉ targets.take j :=
        fun hh => hleg (List.take_subset j targets hh)
      obtain ⟨v1, l1, _⟩ :=
        runChains_persisted_view env cfg fuel (targets.take j) s₀ tr₁ s₁
          hpre htakeleg hnl
      refine ⟨j, ck, tr₁, tr₂, s₁, hj, hpre, hfail, htr, q5,
        q6 e rfl, ?_, ?_⟩
      · intro ev hev
        rw [htr] at hev
        rcases List.mem_append.mp hev with hev | hev
        · obtain ⟨c, hc, hcev⟩ :=
            runChains_events env cfg fuel (targets.take j) s₀ tr₁ (.ok s₁)
              hpre ev hev
          exact ⟨c, by rw [List.take_succ]; exact List.mem_append_left _ hc,
            hcev⟩
        · refine ⟨ck, ?_, q5 ev hev⟩
          rw [List.take_succ, hj]
          exact List.mem_append_right _ (List.mem_singleton.mpr rfl)
      · intro i ck' hij hi
        have hck'mem : ck' ∈ targets := List.getElem?_mem hi
        have hck'leg : ck' ≠ "__legacy" := fun hh => hleg (hh ▸ hck'mem)
        have hne : ck' ≠ ck := by
          intro hh
          subst hh
          have hilen : i < targets.length := by
            by_contra hc
            rw [List.getElem?_eq_none (Nat.le_of_not_lt hc)] at hi
            cases hi
          exact absurd (List.getElem?_inj hilen hnd (hi.trans hj.symm))
            (Nat.ne_of_lt hij)
        rw [htr]
        unfold lastSaved
        rw [savedStates_append, List.getLast?_append]
        cases hls₂ : (savedStates tr₂).getLast? with
        | none => simp only [Option.or]
        | some sl₂ =>
          simp only [Option.or, Option.getD]
          have hsl₂ : jsGet sl₂.chains ck' =
              jsGet (ensureChainState s₁ ck).1.chains ck' :=
            q1 ck' hne sl₂ (List.mem_of_mem_getLast? hls₂)
          rw [hsl₂, ensureChainState_frame s₁ ck ck' hne hck'leg,
            ← v1 ck' hck'leg]
          rfl

/-- C5 witness: the failure-isolation theorem applied to a one-target
run whose query service fails immediately. -/
theorem c5_failure_isolation_witness :
    (["1"] : List String).Nodup ∧
    (("__legacy" : String) ∉ ["1"]) ∧
    jsGet (SemanticSyncState.mk []).chains "__legacy" = none ∧
    (∀ s, failingFetchEnv.save s = .ok ()) ∧
    ∃ j ck tr₁ tr₂ s₁,
      (["1"] : List String)[j]? = some ck ∧
      runChains failingFetchEnv
        { batchSize := 10, includeOrphanedAgents := true } 5
        ((["1"] : List String).take j) (SemanticSyncState.mk []) =
        (tr₁, .ok s₁) ∧
      processChain failingFetchEnv
        { batchSize := 10, includeOrphanedAgents := true } 5 s₁ ck =
        (tr₂, .fail (.io "boom")) ∧
      (runFromState failingFetchEnv
        { batchSize := 10, includeOrphanedAgents := true } 5 ["1"]
        (SemanticSyncState.mk [])).1 = tr₁ ++ tr₂ ∧
      (∀ ev ∈ tr₂, eventChainKey ev = some ck) ∧
      (∃ evl, tr₂.getLast? = some evl ∧ isSaveEvent evl = false) ∧
      (∀ ev ∈ (runFromState failingFetchEnv
          { batchSize := 10, includeOrphanedAgents := true } 5 ["1"]
          (SemanticSyncState.mk [])).1,
        ∃ ck', ck' ∈ (["1"] : List String).take (j + 1) ∧
          eventChainKey ev = some ck') ∧
      (∀ i ck', i < j → (["1"] : List String)[i]? = some ck' →
        entryView (jsGet ((lastSaved (runFromState failingFetchEnv
            { batchSize := 10, includeOrphanedAgents := true } 5 ["1"]
            (SemanticSyncState.mk [])).1).getD
            (SemanticSyncState.mk [])).chains ck') =
          entryView (jsGet ((lastSaved tr₁).getD
            (SemanticSyncState.mk [])).chains ck')) :=
  ⟨by decide, by decide, rfl, fun _ => rfl,
   c5_failure_isolation failingFetchEnv
     { batchSize := 10, includeOrphanedAgents := true } 5 ["1"]
     (SemanticSyncState.mk []) _ (.io "boom") (by decide) (by decide) rfl
     (fun _ => rfl) rfl⟩

/-! ## Monotone watermark bookkeeping -/

theorem watermarkLe_refl (a : String) : watermarkLe a a := Nat.le_refl _

theorem watermarkLe_trans {a b c : String} (h₁ : watermarkLe a b)
    (h₂ : watermarkLe b c) : watermarkLe a c := Nat.le_trans h₁ h₂

theorem lastSaved_append (a b : List Event) :
    lastSaved (a ++ b) = (lastSaved b).or (lastSaved a) := by
  unfold lastSaved
  rw [savedStates_append, List.getLast?_append]

theorem lastSaved_append_getD (a b : List Event) (st : SemanticSyncState) :
    (lastSaved (a ++ b)).getD st = (lastSaved b).getD ((lastSaved a).getD st) := by
  rw [lastSaved_append]
  cases h : lastSaved b <;> simp [Option.or]

theorem wmStepE_of_no_saves (k : String) (st : SemanticSyncState)
    (tr : List Event) (h : savedStates tr = []) :
    WmStepE k st tr ((lastSaved tr).getD st) := by
  have hsw : savedWatermarksAt k tr = [] := by
    unfold savedWatermarksAt
    rw [h]
    rfl
  have hls : lastSaved tr = none := by
    unfold lastSaved
    rw [h]
    rfl
  unfold WmStepE wmHistory
  rw [hsw, hls, List.append_nil]
  have hfin : (none : Option SemanticSyncState).getD st = st := rfl
  rw [hfin]
  refine ⟨?_, ?_, ?_⟩
  · cases hwm : wmAt st k
    · exact List.Pairwise.nil
    · exact List.pairwise_singleton _ _
  · intro a ha b hb
    cases hwm : wmAt st k with
    | none => rw [hwm] at ha; exact absurd ha (List.not_mem_nil a)
    | some w =>
      rw [hwm] at ha hb
      have ha' : a = w := by simpa using ha
      have hb' : b = w := by simpa using hb
      rw [ha', hb']
      exact watermarkLe_refl w
  · intro hne hcon
    cases hwm : wmAt st k with
    | none => rw [hwm] at hne; exact hne rfl
    | some w => rw [hwm] at hcon; exact Option.noConfusion hcon

theorem wmStepE_nil (k : String) (st : SemanticSyncState) :
    WmStepE k st [] st :=
  wmStepE_of_no_saves k st [] rfl

theorem wmStepE_append (k : String) (st s₁ s₂ : SemanticSyncState)
    (tr₁ tr₂ : List Event) (h₁ : WmStepE k st tr₁ s₁)
    (h₂ : WmStepE k s₁ tr₂ s₂) : WmStepE k st (tr₁ ++ tr₂) s₂ := by
  obtain ⟨p₁, b₁, n₁⟩ := h₁
  obtain ⟨p₂, b₂, n₂⟩ := h₂
  unfold wmHistory at p₂ b₂ n₂
  obtain ⟨p₂l, p₂r, p₂x⟩ := List.pairwise_append.mp p₂
  have hh : wmHistory k st (tr₁ ++ tr₂) =
      wmHistory k st tr₁ ++ savedWatermarksAt k tr₂ := by
    unfold wmHistory
    rw [savedWatermarksAt_append, List.append_assoc]
  have hcross : ∀ a ∈ wmHistory k st tr₁, ∀ b ∈ savedWatermarksAt k tr₂,
      watermarkLe a b := by
    intro a ha b hb
    have hne : wmHistory k st tr₁ ≠ [] := by
      intro hcon
      rw [hcon] at ha
      exact absurd ha (List.not_mem_nil a)
    cases hwm : wmAt s₁ k with
    | none => exact absurd hwm (n₁ hne)
    | some w =>
      have haw : watermarkLe a w := b₁ a ha w (by rw [hwm]; simp)
      have hwb : watermarkLe w b := p₂x w (by rw [hwm]; simp) b hb
      exact watermarkLe_trans haw hwb
  unfold WmStepE
  rw [hh]
  refine ⟨List.pairwise_append.mpr ⟨p₁, p₂r, hcross⟩, ?_, ?_⟩
  · intro a ha b hb
    rcases List.mem_append.mp ha with ha | ha
    · have hne : wmHistory k st tr₁ ≠ [] := by
        intro hcon
        rw [hcon] at ha
        exact absurd ha (List.not_mem_nil a)
      cases hwm : wmAt s₁ k with
      | none => exact absurd hwm (n₁ hne)
      | some w =>
        have haw : watermarkLe a w := b₁ a ha w (by rw [hwm]; simp)
        have hwb : watermarkLe w b :=
          b₂ w (List.mem_append_left _ (by rw [hwm]; simp)) b hb
        exact watermarkLe_trans haw hwb
    · exact b₂ a (List.mem_append_right _ ha) b hb
  · intro hne
    by_cases h1 : wmHistory k st tr₁ = []
    · have h2 : savedWatermarksAt k tr₂ ≠ [] := by
        intro hcon
        rw [h1, hcon] at hne
        exact hne rfl
      refine n₂ ?_
      intro hcon
      rcases List.append_eq_nil.mp hcon with ⟨_, hr⟩
      exact h2 hr
    · have hs₁ : wmAt s₁ k ≠ none := n₁ h1
      refine n₂ ?_
      intro hcon
      rcases List.append_eq_nil.mp hcon with ⟨hl, _⟩
      cases hwm : wmAt s₁ k with
      | none => exact hs₁ hwm
      | some w => rw [hwm] at hl; exact List.noConfusion hl

theorem wmStepE_start_congr (k : String) (s₀ s₁ fin : SemanticSyncState)
    (tr : List Event) (h : WmStepE k s₁ tr fin)
    (hwm : wmAt s₀ k = wmAt s₁ k) : WmStepE k s₀ tr fin := by
  unfold WmStepE wmHistory at h ⊢
  rw [hwm]
  exact h

theorem wmStepE_end_congr (k : String) (st f₁ f₂ : SemanticSyncState)
    (tr : List Event) (h : WmStepE k st tr f₁)
    (hwm : wmAt f₂ k = wmAt f₁ k) : WmStepE k st tr f₂ := by
  unfold WmStepE at h ⊢
  rw [hwm]
  exact h

theorem wmStepE_strip_genesis (k : String) (s₀ s₁ fin : SemanticSyncState)
    (tr : List Event) (h : WmStepE k s₁ tr fin)
    (h₀ : wmAt s₀ k = none) (h₁ : wmAt s₁ k = some "0") :
    WmStepE k s₀ tr fin := by
  obtain ⟨p, b, n⟩ := h
  unfold wmHistory at p b n
  rw [h₁] at p b n
  simp only [Option.toList_some, List.singleton_append] at p b n
  unfold WmStepE wmHistory
  rw [h₀]
  simp only [Option.toList_none, List.nil_append]
  refine ⟨p.of_cons, ?_, ?_⟩
  · intro a ha
    exact b a (List.mem_cons_of_mem _ ha)
  · intro hne
    exact n (List.cons_ne_nil _ _)

theorem wmStepE_of_approx_start (k : String) (s₀ s₁ fin : SemanticSyncState)
    (tr : List Event) (h : WmStepE k s₁ tr fin)
    (ha : wmApprox (wmAt s₀ k) (wmAt s₁ k)) : WmStepE k s₀ tr fin := by
  rcases ha with heq | ⟨h₀, h₁⟩
  · exact wmStepE_start_congr k s₀ s₁ fin tr h heq
  · exact wmStepE_strip_genesis k s₀ s₁ fin tr h h₀ h₁

theorem wmStepE_savedFinal (k : String) (st s₁ : SemanticSyncState)
    (ha : wmApprox (wmAt st k) (wmAt s₁ k)) :
    WmStepE k st [.savedFinal s₁] s₁ := by
  have hsw : savedWatermarksAt k [Event.savedFinal s₁] = (wmAt s₁ k).toList := by
    cases hj : jsGet s₁.chains k <;>
      simp [savedWatermarksAt, savedStates, wmAt, hj]
  unfold WmStepE wmHistory
  rw [hsw]
  rcases ha with heq | ⟨h₀, h₁⟩
  · rw [heq]
    cases hwm : wmAt s₁ k with
    | none =>
      simp only [Option.toList_none, List.nil_append]
      exact ⟨List.Pairwise.nil, fun a ha => absurd ha (List.not_mem_nil a),
        fun hne => absurd rfl hne⟩
    | some w =>
      simp only [Option.toList_some, List.singleton_append]
      refine ⟨?_, ?_, ?_⟩
      · refine List.Pairwise.cons ?_ (List.pairwise_singleton _ _)
        intro b hb
        have hb' : b = w := by simpa using hb
        rw [hb']
        exact watermarkLe_refl w
      · intro a ha b hb
        have hb' : b = w := by simpa using hb
        have ha' : a = w := by
          rcases List.mem_cons.mp ha with ha | ha
          · exact ha
          · simpa using ha
        rw [ha', hb']
        exact watermarkLe_refl w
      · intro _ hcon
        exact Option.noConfusion hcon
  · rw [h₀, h₁]
    simp only [Option.toList_none, Option.toList_some, List.nil_append]
    refine ⟨List.pairwise_singleton _ _, ?_, ?_⟩
    · intro a ha b hb
      have ha' : a = "0" := by simpa using ha
      have hb' : b = "0" := by simpa using hb
      rw [ha', hb']
      exact watermarkLe_refl _
    · intro _ hcon
      exact Option.noConfusion hcon

/-- The watermark prepareAgents reports is always one of the candidates
it compared: the starting checkpoint watermark or the watermark of a
fetched row.  This holds whatever comparison the fold uses, so it also
holds for the lexicographic one the code performs. -/
theorem prepareAgentsGo_max_mem (io : Bool) (cs : ChainSyncState) :
    ∀ (agents : List SubgraphAgent) (m : String),
      (prepareAgentsGo io cs m agents).maxUpdatedAt = m ∨
        ∃ a ∈ agents,
          (prepareAgentsGo io cs m agents).maxUpdatedAt =
            a.updatedAt.getD "0" := by
  intro agents
  induction agents with
  | nil => intro m; exact Or.inl rfl
  | cons agent rest ih =>
    intro m
    have key : (prepareAgentsGo io cs m (agent :: rest)).maxUpdatedAt =
        (prepareAgentsGo io cs
          (if strLt m (agent.updatedAt.getD "0") then agent.updatedAt.getD "0"
            else m) rest).maxUpdatedAt := by
      rw [prepareAgentsGo]
      dsimp only
      cases hrf : agent.registrationFile <;> dsimp only <;> split <;> rfl
    rcases ih (if strLt m (agent.updatedAt.getD "0") then
        agent.updatedAt.getD "0" else m) with h | ⟨a, hamem, ha⟩
    · by_cases hlt : strLt m (agent.updatedAt.getD "0") = true
      · rw [if_pos hlt] at h key
        exact Or.inr ⟨agent, List.mem_cons_self agent rest, key.trans h⟩
      · rw [if_neg hlt] at h key
        exact Or.inl (key.trans h)
    · exact Or.inr ⟨a, List.mem_cons_of_mem agent hamem, key.trans ha⟩

/-- Against a source that only returns rows numerically above the
checkpoint watermark, the batch watermark never numerically decreases,
even though the fold compares lexicographically. -/
theorem prepareAgents_watermarkLe (io : Bool) (cs : ChainSyncState)
    (agents : List SubgraphAgent)
    (hag : ∀ a ∈ agents,
      decimalValue cs.lastUpdatedAt < decimalValue (a.updatedAt.getD "0")) :
    watermarkLe cs.lastUpdatedAt (prepareAgents io agents cs).maxUpdatedAt := by
  unfold prepareAgents
  rcases prepareAgentsGo_max_mem io cs agents cs.lastUpdatedAt with h
    | ⟨a, hamem, ha⟩
  · rw [h]
    exact watermarkLe_refl _
  · rw [ha]
    exact Nat.le_of_lt (hag a hamem)

/-- Monotone watermark bookkeeping of the batch loop for the processed
key, against a source honoring the paginated query contract: the loop
starts from a state carrying the chain entry and every persisted
watermark continues a non-decreasing history ending in the store
content. -/
theorem processChainLoop_wmStepE (env : Env) (cfg : RunnerConfig)
    (ck : String) (hfs : FetchSound env) :
    ∀ (fuel : Nat) (st : SemanticSyncState) (cs : ChainSyncState)
      (lu : String) (pa : Bool) (tr : List Event)
      (res : RunResult (SemanticSyncState × Bool)),
      processChainLoop env cfg ck fuel st cs lu pa = (tr, res) →
      jsGet st.chains ck = some cs → cs.lastUpdatedAt = lu →
      WmStepE ck st tr ((lastSaved tr).getD st) := by
  intro fuel
  induction fuel with
  | zero =>
    intro st cs lu pa tr res h hinv hlu
    rw [processChainLoop] at h
    cases h
    exact wmStepE_of_no_saves ck st [] rfl
  | succ fuel ih =>
    intro st cs lu pa tr res h hinv hlu
    simp only [processChainLoop] at h
    rcases hfetch : env.fetch ck lu cfg.batchSize with e | agents <;>
      rw [hfetch] at h <;> dsimp only at h
    · cases h
      exact wmStepE_of_no_saves ck st _ rfl
    · by_cases hemp : agents.isEmpty = true
      · rw [if_pos hemp] at h
        cases h
        exact wmStepE_of_no_saves ck st _ rfl
      · rw [if_neg (by simp [hemp])] at h
        rcases hbatch : processBatch env cfg ck st cs agents with ⟨bev, bres⟩
        rw [hbatch] at h
        have hbs := processBatch_spec env cfg ck st cs agents bev bres hbatch
        cases bres with
        | error e =>
          simp only at h
          cases h
          obtain ⟨hsaves, _⟩ := hbs.2.1 e rfl
          refine wmStepE_of_no_saves ck st _ ?_
          rw [savedStates_append, hsaves]
          rfl
        | ok quad =>
          obtain ⟨state1, cs1, maxU, didWork⟩ := quad
          obtain ⟨hst1, hsaves1, hcs1lu, hmx⟩ :=
            hbs.2.2 state1 cs1 maxU didWork rfl
          simp only at h
          rcases hrec : processChainLoop env cfg ck fuel state1 cs1 maxU
              (pa || didWork) with ⟨tr₂, res₂⟩
          rw [hrec] at h
          simp only at h
          cases h
          have hinv1 : jsGet state1.chains ck = some cs1 := by
            rw [hst1]; exact jsGet_jsSet_self ..
          have hlu1 : cs1.lastUpdatedAt = maxU := by rw [hcs1lu, hmx]
          have hpre : savedStates ([Event.fetched ck lu cfg.batchSize] ++ bev)
              = [state1] := by
            rw [savedStates_append, hsaves1]
            rfl
          have hle : watermarkLe lu cs1.lastUpdatedAt := by
            rw [hcs1lu, ← hlu]
            exact prepareAgents_watermarkLe cfg.includeOrphanedAgents cs agents
              (fun a ha => by
                have hbound := hfs ck lu cfg.batchSize agents hfetch a ha
                rw [hlu]
                exact hbound)
          have hwmst : wmAt st ck = some lu := by
            unfold wmAt
            rw [hinv, Option.map_some', hlu]
          have hwm1 : wmAt state1 ck = some cs1.lastUpdatedAt := by
            unfold wmAt
            rw [hinv1, Option.map_some']
          have hswpre : savedWatermarksAt ck
              ([Event.fetched ck lu cfg.batchSize] ++ bev) =
              [cs1.lastUpdatedAt] := by
            unfold savedWatermarksAt
            rw [hpre]
            simp [hinv1]
          have hstep : WmStepE ck st ([Event.fetched ck lu cfg.batchSize] ++
              bev) state1 := by
            unfold WmStepE wmHistory
            rw [hswpre, hwmst]
            simp only [Option.toList_some, List.singleton_append]
            refine ⟨?_, ?_, ?_⟩
            · refine List.Pairwise.cons ?_ (List.pairwise_singleton _ _)
              intro b hb
              have hb' : b = cs1.lastUpdatedAt := by simpa using hb
              rw [hb']
              exact hle
            · intro a ha b hb
              rw [hwm1] at hb
              have hb' : b = cs1.lastUpdatedAt := by simpa using hb
              rcases List.mem_cons.mp ha with rfl | ha
              · rw [hb']
                exact hle
              · have ha' : a = cs1.lastUpdatedAt := by simpa using ha
                rw [ha', hb']
                exact watermarkLe_refl _
            · intro _
              rw [hwm1]
              exact fun hcon => Option.noConfusion hcon
          have hrest := ih state1 cs1 maxU (pa || didWork) tr₂ res hrec
            hinv1 hlu1
          have hgd : (lastSaved (([Event.fetched ck lu cfg.batchSize] ++ bev)
              ++ tr₂)).getD st = (lastSaved tr₂).getD state1 := by
            rw [lastSaved_append_getD]
            have hpregd : (lastSaved ([Event.fetched ck lu cfg.batchSize] ++
                bev)).getD st = state1 := by
              unfold lastSaved
              rw [hpre]
              rfl
            rw [hpregd]
          rw [hgd]
          exact wmStepE_append ck st state1 ((lastSaved tr₂).getD state1)
            ([Event.fetched ck lu cfg.batchSize] ++ bev) tr₂ hstep hrest

/-- The genesis entry ensureChainState creates for a fresh key carries
the watermark zero. -/
theorem ensureChainState_watermark_of_absent (st : SemanticSyncState)
    (ck : String) (hv : jsGet st.chains ck = none)
    (hnl : jsGet st.chains "__legacy" = none) :
    (ensureChainState st ck).2.lastUpdatedAt = "0" := by
  unfold ensureChainState
  rw [hv, hnl]

/-- Monotone watermark bookkeeping of one whole chain processing, for
every non-legacy partition key, against a source honoring the paginated
query contract. -/
theorem processChain_wmStepE (env : Env) (cfg : RunnerConfig) (fuel : Nat)
    (st : SemanticSyncState) (ck k : String) (tr : List Event)
    (res : RunResult (SemanticSyncState × Bool))
    (h : processChain env cfg fuel st ck = (tr, res)) (hfs : FetchSound env)
    (hkleg : k ≠ "__legacy") (hnl : jsGet st.chains "__legacy" = none) :
    WmStepE k st tr ((lastSaved tr).getD st) := by
  by_cases hkc : k = ck
  · subst hkc
    have hloop : processChainLoop env cfg k fuel (ensureChainState st k).1
        (ensureChainState st k).2 (ensureChainState st k).2.lastUpdatedAt
        false = (tr, res) := h
    have hA := processChainLoop_wmStepE env cfg k hfs fuel
      (ensureChainState st k).1 (ensureChainState st k).2
      (ensureChainState st k).2.lastUpdatedAt false tr res hloop
      (ensureChainState_self st k) rfl
    cases hv : jsGet st.chains k with
    | some cs0 =>
      have hstart : wmAt st k = wmAt (ensureChainState st k).1 k := by
        unfold wmAt
        rw [hv, ensureChainState_self st k, Option.map_some', Option.map_some',
          ensureChainState_watermark_of_present st k cs0 hv]
      have hend : wmAt ((lastSaved tr).getD st) k =
          wmAt ((lastSaved tr).getD (ensureChainState st k).1) k := by
        cases hls : lastSaved tr with
        | some sl => rfl
        | none => exact hstart
      exact wmStepE_end_congr k st _ _ tr
        (wmStepE_start_congr k st (ensureChainState st k).1 _ tr hA hstart)
        hend
    | none =>
      cases hls : lastSaved tr with
      | none =>
        have hsaves : savedStates tr = [] :=
          List.getLast?_eq_none_iff.mp hls
        have hres := wmStepE_of_no_saves k st tr hsaves
        rw [hls] at hres
        exact hres
      | some sl =>
        have hgenesis : wmAt (ensureChainState st k).1 k = some "0" := by
          unfold wmAt
          rw [ensureChainState_self st k, Option.map_some',
            ensureChainState_watermark_of_absent st k hv hnl]
        have hzero : wmAt st k = none := by
          unfold wmAt
          rw [hv]
          rfl
        rw [hls] at hA
        exact wmStepE_strip_genesis k st (ensureChainState st k).1 _ tr hA
          hzero hgenesis
  · obtain ⟨p1, _, _, _, _, _⟩ :=
      processChain_spec env cfg fuel st ck tr res h
    have hframe : ∀ s' ∈ savedStates tr, jsGet s'.chains k =
        jsGet st.chains k := by
      intro s' hs'
      rw [p1 k hkc s' hs']
      exact ensureChainState_frame st ck k hkc hkleg
    cases hv : jsGet st.chains k with
    | none =>
      have hsw : savedWatermarksAt k tr = [] := by
        unfold savedWatermarksAt
        refine List.filterMap_eq_nil_iff.mpr ?_
        intro s' hs'
        rw [hframe s' hs', hv]
        rfl
      have hwmst : wmAt st k = none := by
        unfold wmAt
        rw [hv]
        rfl
      have hwmfin : wmAt ((lastSaved tr).getD st) k = none := by
        cases hls : lastSaved tr with
        | none => exact hwmst
        | some sl =>
          unfold wmAt
          rw [show ((some sl : Option SemanticSyncState).getD st) = sl
            from rfl, hframe sl (List.mem_of_mem_getLast? hls), hv]
          rfl
      unfold WmStepE wmHistory
      rw [hsw, hwmst, List.append_nil]
      simp only [Option.toList_none]
      exact ⟨List.Pairwise.nil, fun a ha => absurd ha (List.not_mem_nil a),
        fun hne => absurd rfl hne⟩
    | some cs0 =>
      have hswmem : ∀ x ∈ savedWatermarksAt k tr, x = cs0.lastUpdatedAt := by
        intro x hx
        obtain ⟨s', hs', hfx⟩ := List.mem_filterMap.mp hx
        rw [hframe s' hs', hv, Option.map_some'] at hfx
        exact (Option.some_inj.mp hfx).symm
      have hwmst : wmAt st k = some cs0.lastUpdatedAt := by
        unfold wmAt
        rw [hv, Option.map_some']
      have hwmfin : wmAt ((lastSaved tr).getD st) k =
          some cs0.lastUpdatedAt := by
        cases hls : lastSaved tr with
        | none => exact hwmst
        | some sl =>
          unfold wmAt
          rw [show ((some sl : Option SemanticSyncState).getD st) = sl
            from rfl, hframe sl (List.mem_of_mem_getLast? hls), hv,
            Option.map_some']
      unfold WmStepE wmHistory
      rw [hwmst, hwmfin]
      simp only [Option.toList_some, List.singleton_append]
      have hallw : ∀ x ∈ cs0.lastUpdatedAt :: savedWatermarksAt k tr,
          x = cs0.lastUpdatedAt := by
        intro x hx
        rcases List.mem_cons.mp hx with hx | hx
        · exact hx
        · exact hswmem x hx
      refine ⟨?_, ?_, ?_⟩
      · refine List.pairwise_of_forall_mem_list ?_
        intro a ha b hb
        rw [hallw a ha, hallw b hb]
        exact watermarkLe_refl _
      · intro a ha b hb
        have hb' : b = cs0.lastUpdatedAt := by simpa using hb
        rw [hallw a ha, hb']
        exact watermarkLe_refl _
      · intro _ hcon
        exact Option.noConfusion hcon

/-- After a successful chain processing, the store content and the
returned state agree on every non-legacy key's watermark, except that a
fresh key the store has never seen carries the genesis watermark in
memory. -/
theorem processChain_wm_approx (env : Env) (cfg : RunnerConfig) (fuel : Nat)
    (st : SemanticSyncState) (ck k : String) (tr : List Event)
    (s₁ : SemanticSyncState) (pa : Bool)
    (h : processChain env cfg fuel st ck = (tr, .ok (s₁, pa)))
    (hkleg : k ≠ "__legacy") (hnl : jsGet st.chains "__legacy" = none) :
    wmApprox (wmAt ((lastSaved tr).getD st) k) (wmAt s₁ k) := by
  obtain ⟨_, _, p3, _, _, _⟩ :=
    processChain_spec env cfg fuel st ck tr (.ok (s₁, pa)) h
  have hs1 := p3 s₁ pa rfl
  rw [hs1]
  cases hls : lastSaved tr with
  | some sl => exact Or.inl rfl
  | none =>
    show wmApprox (wmAt st k) (wmAt (ensureChainState st ck).1 k)
    by_cases hkc : k = ck
    · subst hkc
      cases hv : jsGet st.chains k with
      | some cs0 =>
        refine Or.inl ?_
        unfold wmAt
        rw [hv, ensureChainState_self st k, Option.map_some', Option.map_some',
          ensureChainState_watermark_of_present st k cs0 hv]
      | none =>
        refine Or.inr ⟨?_, ?_⟩
        · unfold wmAt
          rw [hv]
          rfl
        · unfold wmAt
          rw [ensureChainState_self st k, Option.map_some',
            ensureChainState_watermark_of_absent st k hv hnl]
    · refine Or.inl ?_
      unfold wmAt
      rw [ensureChainState_frame st ck k hkc hkleg]

theorem wmApprox_trans {a b c : Option String} (h₁ : wmApprox a b)
    (h₂ : wmApprox b c) : wmApprox a c := by
  rcases h₁ with h₁ | ⟨h₁n, h₁z⟩
  · rcases h₂ with h₂ | ⟨h₂n, h₂z⟩
    · exact Or.inl (h₁.trans h₂)
    · exact Or.inr ⟨h₁.trans h₂n, h₂z⟩
  · rcases h₂ with h₂ | ⟨h₂n, h₂z⟩
    · exact Or.inr ⟨h₁n, h₂ ▸ h₁z⟩
    · rw [h₁z] at h₂n
      exact Option.noConfusion h₂n

theorem wmStepE_of_empty_history (k : String) (st fin : SemanticSyncState)
    (tr : List Event) (hhist : wmHistory k st tr = []) :
    WmStepE k st tr fin := by
  unfold WmStepE
  rw [hhist]
  exact ⟨List.Pairwise.nil, fun a ha => absurd ha (List.not_mem_nil a),
    fun hne => absurd rfl hne⟩

/-- Monotone watermark bookkeeping over a whole chain list. -/
theorem runChains_wmStepE (env : Env) (cfg : RunnerConfig) (fuel : Nat)
    (k : String) (hfs : FetchSound env) (hkleg : k ≠ "__legacy") :
    ∀ (ts : List String) (st : SemanticSyncState) (tr : List Event)
      (res : RunResult SemanticSyncState),
      runChains env cfg fuel ts st = (tr, res) →
      "__legacy" ∉ ts → jsGet st.chains "__legacy" = none →
      WmStepE k st tr ((lastSaved tr).getD st)
  | [], st, tr, res => by
    intro h _ _
    rw [runChains] at h
    cases h
    exact wmStepE_nil k st
  | ck :: rest, st, tr, res => by
    intro h hleg hnl
    have hckleg : ck ≠ "__legacy" :=
      fun hh => hleg (hh ▸ List.mem_cons_self ck rest)
    have hrestleg : "__legacy" ∉ rest :=
      fun hh => hleg (List.mem_cons_of_mem ck hh)
    rw [runChains] at h
    rcases hpc : processChain env cfg fuel st ck with ⟨tr₁, res₁⟩
    rw [hpc] at h
    cases res₁ with
    | fail e =>
      simp only at h
      cases h
      exact processChain_wmStepE env cfg fuel st ck k tr (.fail e) hpc hfs
        hkleg hnl
    | hung =>
      simp only at h
      cases h
      exact processChain_wmStepE env cfg fuel st ck k tr .hung hpc hfs
        hkleg hnl
    | ok pair =>
      obtain ⟨s₁, pa₁⟩ := pair
      simp only at h
      rcases hrest : runChains env cfg fuel rest s₁ with ⟨tr₂, res₂⟩
      rw [hrest] at h
      simp only at h
      cases h
      obtain ⟨_, l1, _⟩ :=
        processChain_persisted_view env cfg fuel st ck tr₁ s₁ pa₁ hpc
          hckleg hnl
      have h1 := processChain_wmStepE env cfg fuel st ck k tr₁
        (.ok (s₁, pa₁)) hpc hfs hkleg hnl
      have happ := processChain_wm_approx env cfg fuel st ck k tr₁ s₁ pa₁
        hpc hkleg hnl
      have h2 := runChains_wmStepE env cfg fuel k hfs hkleg rest s₁ tr₂
        res hrest hrestleg l1
      have h2' := wmStepE_of_approx_start k ((lastSaved tr₁).getD st) s₁ _
        tr₂ h2 happ
      have hcomp := wmStepE_append k st ((lastSaved tr₁).getD st)
        ((lastSaved tr₂).getD s₁) tr₁ tr₂ h1 h2'
      rw [lastSaved_append_getD]
      rcases happ with heq | ⟨hn₁, hs₁0⟩
      · refine wmStepE_end_congr k st ((lastSaved tr₂).getD s₁)
          ((lastSaved tr₂).getD ((lastSaved tr₁).getD st)) (tr₁ ++ tr₂)
          hcomp ?_
        cases hls₂ : lastSaved tr₂ with
        | some sl₂ => rfl
        | none => exact heq
      · cases hls₂ : lastSaved tr₂ with
        | some sl₂ =>
          refine wmStepE_end_congr k st ((lastSaved tr₂).getD s₁) _
            (tr₁ ++ tr₂) hcomp ?_
          rw [hls₂]
          rfl
        | none =>
          refine wmStepE_of_empty_history k st _ (tr₁ ++ tr₂) ?_
          have hh₁ : wmHistory k st tr₁ = [] := by
            by_contra hcon
            exact (h1.2.2 hcon) hn₁
          have hsw₂ : savedWatermarksAt k tr₂ = [] := by
            unfold savedWatermarksAt
            have hs₂ : savedStates tr₂ = [] := by
              have := hls₂
              unfold lastSaved at this
              exact List.getLast?_eq_none_iff.mp this
            rw [hs₂]
            rfl
          unfold wmHistory at hh₁ ⊢
          rw [savedWatermarksAt_append, hsw₂, List.append_nil]
          exact hh₁

/-- After a successful chain list, the store content and the returned
state agree on every non-legacy key's watermark, except that keys the
store has never seen may carry the genesis watermark in memory. -/
theorem runChains_wm_approx (env : Env) (cfg : RunnerConfig) (fuel : Nat)
    (k : String) (hkleg : k ≠ "__legacy") :
    ∀ (ts : List String) (st : SemanticSyncState) (tr : List Event)
      (s' : SemanticSyncState),
      runChains env cfg fuel ts st = (tr, .ok s') →
      "__legacy" ∉ ts → jsGet st.chains "__legacy" = none →
      wmApprox (wmAt ((lastSaved tr).getD st) k) (wmAt s' k)
  | [], st, tr, s' => by
    intro h _ _
    rw [runChains] at h
    cases h
    exact Or.inl rfl
  | ck :: rest, st, tr, s' => by
    intro h hleg hnl
    have hckleg : ck ≠ "__legacy" :=
      fun hh => hleg (hh ▸ List.mem_cons_self ck rest)
    have hrestleg : "__legacy" ∉ rest :=
      fun hh => hleg (List.mem_cons_of_mem ck hh)
    rw [runChains] at h
    rcases hpc : processChain env cfg fuel st ck with ⟨tr₁, res₁⟩
    rw [hpc] at h
    cases res₁ with
    | fail e => simp only at h; cases h
    | hung => simp only at h; cases h
    | ok pair =>
      obtain ⟨s₁, pa₁⟩ := pair
      simp only at h
      rcases hrest : runChains env cfg fuel rest s₁ with ⟨tr₂, res₂⟩
      rw [hrest] at h
      simp only at h
      cases h
      obtain ⟨_, l1, _⟩ :=
        processChain_persisted_view env cfg fuel st ck tr₁ s₁ pa₁ hpc
          hckleg hnl
      have happ₁ := processChain_wm_approx env cfg fuel st ck k tr₁ s₁ pa₁
        hpc hkleg hnl
      have happ₂ := runChains_wm_approx env cfg fuel k hkleg rest s₁ tr₂
        s' hrest hrestleg l1
      rw [lastSaved_append_getD]
      cases hls₂ : lastSaved tr₂ with
      | some sl₂ =>
        rw [hls₂] at happ₂
        exact happ₂
      | none =>
        rw [hls₂] at happ₂
        exact wmApprox_trans happ₁ happ₂

/-- Monotone watermark bookkeeping over one whole run, including the
run-final save. -/
theorem runFromState_wmStepE (env : Env) (cfg : RunnerConfig) (fuel : Nat)
    (targets : List String) (k : String) (st : SemanticSyncState)
    (tr : List Event) (res : RunResult SemanticSyncState)
    (h : runFromState env cfg fuel targets st = (tr, res))
    (hfs : FetchSound env) (hkleg : k ≠ "__legacy")
    (hleg : "__legacy" ∉ targets)
    (hnl : jsGet st.chains "__legacy" = none) :
    WmStepE k st tr ((lastSaved tr).getD st) := by
  unfold runFromState at h
  by_cases hemp : targets.isEmpty = true
  · rw [if_pos hemp] at h
    cases h
    exact wmStepE_nil k st
  · rw [if_neg hemp] at h
    rcases hrc : runChains env cfg fuel targets st with ⟨trc, resc⟩
    rw [hrc] at h
    cases resc with
    | fail e =>
      simp only at h
      cases h
      exact runChains_wmStepE env cfg fuel k hfs hkleg targets st tr
        (.fail e) hrc hleg hnl
    | hung =>
      simp only at h
      cases h
      exact runChains_wmStepE env cfg fuel k hfs hkleg targets st tr
        .hung hrc hleg hnl
    | ok s₁ =>
      simp only at h
      cases hsv : env.save s₁ with
      | error e =>
        rw [hsv] at h
        simp only at h
        cases h
        exact runChains_wmStepE env cfg fuel k hfs hkleg targets st tr
          (.ok s₁) hrc hleg hnl
      | ok u =>
        rw [hsv] at h
        simp only at h
        cases h
        have h1 := runChains_wmStepE env cfg fuel k hfs hkleg targets st
          trc (.ok s₁) hrc hleg hnl
        have happ := runChains_wm_approx env cfg fuel k hkleg targets st
          trc s₁ hrc hleg hnl
        have h2 := wmStepE_savedFinal k ((lastSaved trc).getD st) s₁ happ
        have hcomp := wmStepE_append k st ((lastSaved trc).getD st) s₁ trc
          [Event.savedFinal s₁] h1 h2
        rw [lastSaved_append_getD]
        exact hcomp

/-- Every state the store accepts during a chain list keeps the legacy
entry absent. -/
theorem runChains_saves_legacy_none (env : Env) (cfg : RunnerConfig)
    (fuel : Nat) :
    ∀ (ts : List String) (st : SemanticSyncState) (tr : List Event)
      (res : RunResult SemanticSyncState),
      runChains env cfg fuel ts st = (tr, res) →
      "__legacy" ∉ ts → jsGet st.chains "__legacy" = none →
      ∀ s' ∈ savedStates tr, jsGet s'.chains "__legacy" = none
  | [], st, tr, res => by
    intro h _ _ s' hs'
    rw [runChains] at h
    cases h
    exact absurd hs' (List.not_mem_nil s')
  | ck :: rest, st, tr, res => by
    intro h hleg hnl s' hs'
    have hckleg : ck ≠ "__legacy" :=
      fun hh => hleg (hh ▸ List.mem_cons_self ck rest)
    have hrestleg : "__legacy" ∉ rest :=
      fun hh => hleg (List.mem_cons_of_mem ck hh)
    rw [runChains] at h
    rcases hpc : processChain env cfg fuel st ck with ⟨tr₁, res₁⟩
    rw [hpc] at h
    have hsave₁ : ∀ s'' ∈ savedStates tr₁,
        jsGet s''.chains "__legacy" = none := by
      intro s'' hs''
      obtain ⟨p1, _, _, _, _, _⟩ :=
        processChain_spec env cfg fuel st ck tr₁ res₁ hpc
      rw [p1 "__legacy" (fun hh => hckleg hh.symm) s'' hs'']
      exact ensureChainState_legacy_none st ck hckleg hnl
    cases res₁ with
    | fail e =>
      simp only at h
      cases h
      exact hsave₁ s' hs'
    | hung =>
      simp only at h
      cases h
      exact hsave₁ s' hs'
    | ok pair =>
      obtain ⟨s₁, pa₁⟩ := pair
      simp only at h
      rcases hrest : runChains env cfg fuel rest s₁ with ⟨tr₂, res₂⟩
      rw [hrest] at h
      simp only at h
      cases h
      obtain ⟨_, l1, _⟩ :=
        processChain_persisted_view env cfg fuel st ck tr₁ s₁ pa₁ hpc
          hckleg hnl
      rw [savedStates_append] at hs'
      rcases List.mem_append.mp hs' with hs' | hs'
      · exact hsave₁ s' hs'
      · exact runChains_saves_legacy_none env cfg fuel rest s₁ tr₂ res
          hrest hrestleg l1 s' hs'

/-- The store content after a whole run keeps the legacy entry
absent. -/
theorem runFromState_store_legacy_none (env : Env) (cfg : RunnerConfig)
    (fuel : Nat) (targets : List String) (st : SemanticSyncState)
    (tr : List Event) (res : RunResult SemanticSyncState)
    (h : runFromState env cfg fuel targets st = (tr, res))
    (hleg : "__legacy" ∉ targets)
    (hnl : jsGet st.chains "__legacy" = none) :
    jsGet ((lastSaved tr).getD st).chains "__legacy" = none := by
  unfold runFromState at h
  by_cases hemp : targets.isEmpty = true
  · rw [if_pos hemp] at h
    cases h
    exact hnl
  · rw [if_neg hemp] at h
    rcases hrc : runChains env cfg fuel targets st with ⟨trc, resc⟩
    rw [hrc] at h
    have hfromChains : jsGet ((lastSaved trc).getD st).chains "__legacy" =
        none := by
      cases hls : lastSaved trc with
      | none => exact hnl
      | some sl =>
        have hmem : sl ∈ savedStates trc := by
          refine List.mem_of_mem_getLast? ?_
          have := hls
          unfold lastSaved at this
          exact this
        exact runChains_saves_legacy_none env cfg fuel targets st trc resc
          hrc hleg hnl sl hmem
    cases resc with
    | fail e =>
      simp only at h
      cases h
      exact hfromChains
    | hung =>
      simp only at h
      cases h
      exact hfromChains
    | ok s₁ =>
      simp only at h
      cases hsv : env.save s₁ with
      | error e =>
        rw [hsv] at h
        simp only at h
        cases h
        exact hfromChains
      | ok u =>
        rw [hsv] at h
        simp only at h
        cases h
        obtain ⟨_, l2, _⟩ :=
          runChains_persisted_view env cfg fuel targets st trc s₁ hrc
            hleg hnl
        have hlast : lastSaved (trc ++ [Event.savedFinal s₁]) = some s₁ := by
          rw [lastSaved_append]
          rfl
        rw [hlast]
        exact l2

/-- Monotone watermark bookkeeping over any sequence of runs against the
same store, each run resuming from the store content. -/
theorem runSeq_wmStepE (cfg : RunnerConfig) (targets : List String)
    (k : String) (hkleg : k ≠ "__legacy")
    (hleg : "__legacy" ∉ targets) :
    ∀ (runs : List (Env × Nat)) (st : SemanticSyncState),
      (∀ r ∈ runs, FetchSound r.1) →
      jsGet st.chains "__legacy" = none →
      WmStepE k st (runSeq cfg targets runs st)
        ((lastSaved (runSeq cfg targets runs st)).getD st)
  | [], st => by
    intro _ _
    exact wmStepE_nil k st
  | (env, fuel) :: rest, st => by
    intro hfs hnl
    have hfs₁ : FetchSound env := hfs (env, fuel) (List.mem_cons_self _ _)
    have hfsrest : ∀ r ∈ rest, FetchSound r.1 :=
      fun r hr => hfs r (List.mem_cons_of_mem _ hr)
    simp only [runSeq]
    rcases hr : runFromState env cfg fuel targets st with ⟨tr₁, res₁⟩
    dsimp only
    have h1 := runFromState_wmStepE env cfg fuel targets k st tr₁ res₁ hr
      hfs₁ hkleg hleg hnl
    have hnl₁ := runFromState_store_legacy_none env cfg fuel targets st
      tr₁ res₁ hr hleg hnl
    have h2 := runSeq_wmStepE cfg targets k hkleg hleg rest
      ((lastSaved tr₁).getD st) hfsrest hnl₁
    have hcomp := wmStepE_append k st ((lastSaved tr₁).getD st)
      ((lastSaved (runSeq cfg targets rest ((lastSaved tr₁).getD st))).getD
        ((lastSaved tr₁).getD st)) tr₁
      (runSeq cfg targets rest ((lastSaved tr₁).getD st)) h1 h2
    rw [lastSaved_append_getD]
    exact hcomp

theorem insertByWatermark_perm (a : SubgraphAgent) :
    ∀ l, (insertByWatermark a l).Perm (a :: l)
  | [] => .refl _
  | b :: bs => by
    rw [insertByWatermark]
    by_cases h : decimalValue (a.updatedAt.getD "0") ≤
        decimalValue (b.updatedAt.getD "0")
    · rw [if_pos h]
    · rw [if_neg h]
      exact ((insertByWatermark_perm a bs).cons b).trans
        (List.Perm.swap a b bs)

theorem sortByWatermark_perm : ∀ l, (sortByWatermark l).Perm l
  | [] => .refl _
  | a :: as => by
    rw [sortByWatermark]
    exact (insertByWatermark_perm a (sortByWatermark as)).trans
      ((sortByWatermark_perm as).cons a)

/-- A dataset-backed environment honors the paginated query contract:
it serves only rows whose watermark exceeds, as an arbitrary-precision
integer, the requested exclusive lower bound. -/
theorem datasetEnv_fetchSound (ds : String → List SubgraphAgent) :
    FetchSound (datasetEnv ds) := by
  intro ck lower n agents h a ha
  have h' : Except.ok (datasetFetch ds ck lower n) =
      (Except.ok agents : Except Err (List SubgraphAgent)) := h
  injection h' with h''
  rw [← h''] at ha
  unfold datasetFetch at ha
  have h1 := List.take_subset n _ ha
  have h2 := (sortByWatermark_perm _).subset h1
  obtain ⟨_, hdec⟩ := List.mem_filter.mp h2
  exact of_decide_eq_true hdec

/-- C4.  Monotonic watermark: for every non-legacy partition, across any
sequence of runs against the same checkpoint store (each run resuming
from the store content), given sources that only return rows whose
watermark strictly exceeds the requested lower bound as an
arbitrary-precision integer, the partition's watermark history — its
initial checkpoint entry followed by the watermark of every accepted
save, in save order — is non-decreasing as arbitrary-precision integers:
no save ever stores a watermark smaller than a previously saved one.
This holds despite the lexicographic batch maximum of C1, because the
stored watermark is always either the prior checkpoint watermark or the
watermark of a row fetched above it. -/
theorem c4_watermark_monotone (cfg : RunnerConfig) (targets : List String)
    (runs : List (Env × Nat)) (s₀ : SemanticSyncState) (k : String)
    (hfs : ∀ r ∈ runs, FetchSound r.1) (hkleg : k ≠ "__legacy")
    (htleg : "__legacy" ∉ targets)
    (hnl : jsGet s₀.chains "__legacy" = none) :
    List.Pairwise watermarkLe (wmHistory k s₀ (runSeq cfg targets runs s₀)) :=
  (runSeq_wmStepE cfg targets k hkleg htleg runs s₀ hfs hnl).1

/-- C4 witness: the monotone-watermark theorem applied to two successive
runs of a one-partition, one-row dataset from an empty store. -/
theorem c4_watermark_monotone_witness :
    (∀ r ∈ [((datasetEnv oneRowDataset), 5), ((datasetEnv oneRowDataset), 5)],
      FetchSound r.1) ∧
    ("1" : String) ≠ "__legacy" ∧
    ("__legacy" : String) ∉ ["1"] ∧
    jsGet (SemanticSyncState.mk []).chains "__legacy" = none ∧
    List.Pairwise watermarkLe (wmHistory "1" (SemanticSyncState.mk [])
      (runSeq { batchSize := 10, includeOrphanedAgents := true } ["1"]
        [((datasetEnv oneRowDataset), 5), ((datasetEnv oneRowDataset), 5)]
        (SemanticSyncState.mk []))) := by
  refine ⟨?_, by decide, by decide, rfl, ?_⟩
  · intro r hr
    rcases List.mem_cons.mp hr with rfl | hr
    · exact datasetEnv_fetchSound oneRowDataset
    · rcases List.mem_cons.mp hr with rfl | hr
      · exact datasetEnv_fetchSound oneRowDataset
      · exact absurd hr (List.not_mem_nil r)
  · exact c4_watermark_monotone
      { batchSize := 10, includeOrphanedAgents := true } ["1"]
      [((datasetEnv oneRowDataset), 5), ((datasetEnv oneRowDataset), 5)]
      (SemanticSyncState.mk []) "1"
      (by
        intro r hr
        rcases List.mem_cons.mp hr with rfl | hr
        · exact datasetEnv_fetchSound oneRowDataset
        · rcases List.mem_cons.mp hr with rfl | hr
          · exact datasetEnv_fetchSound oneRowDataset
          · exact absurd hr (List.not_mem_nil r))
      (by decide) (by decide) rfl

end Agent0
